import Mathlib

/-!
LIF network simulator (`main.cpp`): shallow embedding and verified properties

Modelling conventions.

* `double` quantities are embedded as exact rationals (`ℚ`); rounding of IEEE
  arithmetic is outside the model.  The decimal constants of the source are
  taken at their written value (`0.1` is `1/10`).
* `int` quantities are embedded as `Int` (the refractory timer, the step index
  handed to `update`) or as `Nat` (loop counters and neuron indices, which the
  program only ever produces from loops starting at zero).
* `std::vector` is embedded as `List`; `v[i]` on an index outside the vector
  (undefined behaviour in the source) leaves the state unchanged.
* The global generator `rng` is embedded as an explicit state `Rng`: the
  outcome of the `k`-th distribution call is given by a stream, one stream
  for `uni(rng)` and one for `conn_dist(rng)`, and a counter records how many
  calls have been made.  Quantifying over the streams quantifies over every
  sequence of random draws.
* The global switch `use_conductance_based` is an explicit argument.
-/

namespace LIF

/-! ## Constants -/

/-- Conversion `static_cast<int>` of a real: truncation toward zero. -/
def static_cast_int (x : ℚ) : Int := if 0 ≤ x then ⌊x⌋ else ⌈x⌉

/-- Connection probability. -/
def p_conn : ℚ := 1 / 10
/-- Time step in ms. -/
def dt : ℚ := 1 / 10
/-- Total simulation time in ms. -/
def T : ℚ := 1000
/-- Number of simulation steps, `static_cast<int>(T / dt)`. -/
def steps : Int := static_cast_int (T / dt)

def V_rest : ℚ := -70
def V_th : ℚ := -55
def E_rev : ℚ := 0
def R_m : ℚ := 1 / 10
def tau_m : ℚ := 10
def tau_s : ℚ := 5
def g_s : ℚ := 1 / 100
def I_s : ℚ := 1 / 10000
def p_s : ℚ := 1 / 10000
def tau_ref : ℚ := 2
/-- Refractory period in steps, `static_cast<int>(tau_ref / dt)`. -/
def ref_steps : Int := static_cast_int (tau_ref / dt)

/-! ## Random source -/

/-- State of the generator `rng`: the outcome streams of the two
distributions, indexed by the number of the call, and the number of calls
made so far. -/
structure Rng where
  uniform : Nat → ℚ
  bernoulli : Nat → Bool
  calls : Nat

/-- One call `uni(rng)`. -/
def uni (rng : Rng) : ℚ × Rng :=
  (rng.uniform rng.calls, { rng with calls := rng.calls + 1 })

/-- One call `conn_dist(rng)`. -/
def conn_dist (rng : Rng) : Bool × Rng :=
  (rng.bernoulli rng.calls, { rng with calls := rng.calls + 1 })

/-! ## Neuron -/

/-- Class `Neuron`, with the member initialisers of the source as defaults. -/
structure Neuron where
  V : ℚ := V_rest
  g : ℚ := 0
  I_syn : ℚ := 0
  refract_timer : Int := 0
  post_synaptic : List Nat := []
  spike_history : List ℚ := []

namespace Neuron

/-- Method `Neuron::fire`. -/
def fire (n : Neuron) (t : Int) : Neuron :=
  { n with
    V := V_rest
    refract_timer := ref_steps
    spike_history := n.spike_history ++ [(t : ℚ) * dt] }

/-- The integration branch of `Neuron::update` (lines 60-69): the synaptic
current and the potential after the mode-dependent update. -/
def integrate (use_conductance_based : Bool) (n : Neuron) : Neuron :=
  if use_conductance_based then
    let I1 := n.I_syn + -(n.g / tau_s) * dt
    let I2 := max 0 I1
    let dV := dt / tau_m * (-(n.V - V_rest) + R_m * n.g * (E_rev - n.V))
    { n with I_syn := I2, V := n.V + dV }
  else
    let I1 := n.I_syn + -(n.I_syn / tau_s) * dt
    let dV := dt / tau_m * (-(n.V - V_rest) + R_m * I1)
    { n with I_syn := I1, V := n.V + dV }

/-- Method `Neuron::update`.  Returns the neuron after the call, the value
left in the out-parameter `spiked`, and the generator after the call. -/
def update (use_conductance_based : Bool) (n : Neuron) (t : Int)
    (_current_input : ℚ) (rng : Rng) : Neuron × Bool × Rng :=
  if n.refract_timer > 0 then
    ({ n with refract_timer := n.refract_timer - 1, V := V_rest }, false, rng)
  else
    let d := uni rng
    if d.1 < p_s then
      (n.fire t, true, d.2)
    else
      let n1 := integrate use_conductance_based n
      if n1.V ≥ V_th then (n1.fire t, true, d.2) else (n1, false, d.2)

/-- Method `Neuron::receive_spike`. -/
def receive_spike (use_conductance_based : Bool) (n : Neuron) : Neuron :=
  if use_conductance_based then { n with g := n.g + g_s }
  else { n with I_syn := n.I_syn + I_s }

end Neuron

/-! ## Network state -/

/-- The global state of the program: the vector `neurons`, the raster
`spike_times` and the generator `rng`. -/
structure Sim where
  neurons : List Neuron
  spike_times : List (Nat × ℚ)
  rng : Rng

/-- State of `main` after `neurons.resize(N)`: `N` default neurons, an empty
raster. -/
def init (N : Nat) (rng : Rng) : Sim :=
  { neurons := List.replicate N {}, spike_times := [], rng := rng }

/-! ## Connectivity -/

/-- Body of the inner loop of `connect_neurons` for the pair `(i, j)`.  The
draw is made only when `i != j` (short-circuit `&&`). -/
def connect_pair (i : Nat) (s : Sim) (j : Nat) : Sim :=
  if i ≠ j then
    let d := conn_dist s.rng
    if d.1 then
      match s.neurons[i]? with
      | some n =>
        { s with
          neurons := s.neurons.set i { n with post_synaptic := n.post_synaptic ++ [j] }
          rng := d.2 }
      | none => { s with rng := d.2 }
    else { s with rng := d.2 }
  else s

/-- Body of the outer loop of `connect_neurons`: the inner loop over `j`. -/
def connect_row (N : Nat) (s : Sim) (i : Nat) : Sim :=
  (List.range N).foldl (connect_pair i) s

/-- Function `connect_neurons` for a population of `N` neurons. -/
def connect_neurons (N : Nat) (s : Sim) : Sim :=
  (List.range N).foldl (connect_row N) s

/-! ## Simulation loop -/

/-- Body of the first inner loop of `simulate` (lines 111-116) at index `i`:
the state is the program state together with the vector `fired`. -/
def update_one (use_conductance_based : Bool) (t : Int)
    (st : Sim × List Bool) (i : Nat) : Sim × List Bool :=
  match st.1.neurons[i]? with
  | some n =>
    let r := n.update use_conductance_based t 0 st.1.rng
    ({ neurons := st.1.neurons.set i r.1
       spike_times :=
         if r.2.1 then st.1.spike_times ++ [(i, (t : ℚ) * dt)] else st.1.spike_times
       rng := r.2.2 },
     st.2.set i r.2.1)
  | none => st

/-- Update phase of one step (lines 108-116): `fired` starts as `N` zeros. -/
def update_phase (use_conductance_based : Bool) (N : Nat) (t : Int) (s : Sim) :
    Sim × List Bool :=
  (List.range N).foldl (update_one use_conductance_based t) (s, List.replicate N false)

/-- One call `neurons[target].receive_spike()`. -/
def deliver (use_conductance_based : Bool) (ns : List Neuron) (target : Nat) :
    List Neuron :=
  match ns[target]? with
  | some n => ns.set target (n.receive_spike use_conductance_based)
  | none => ns

/-- Body of the second inner loop of `simulate` (lines 120-124) at index `i`. -/
def propagate_one (use_conductance_based : Bool) (fired : List Bool)
    (ns : List Neuron) (i : Nat) : List Neuron :=
  if fired.getD i false then
    match ns[i]? with
    | some n => n.post_synaptic.foldl (deliver use_conductance_based) ns
    | none => ns
  else ns

/-- The propagation loop run over the fired neurons in a given visiting
order. -/
def propagate_order (use_conductance_based : Bool) (fired : List Bool)
    (order : List Nat) (ns : List Neuron) : List Neuron :=
  order.foldl (propagate_one use_conductance_based fired) ns

/-- Propagation phase of one step (lines 119-125): indices visited in
increasing order. -/
def propagate (use_conductance_based : Bool) (N : Nat) (fired : List Bool)
    (s : Sim) : Sim :=
  { s with neurons := propagate_order use_conductance_based fired (List.range N) s.neurons }

/-- One iteration of the loop of `simulate` (the progress output aside). -/
def simulate_step (use_conductance_based : Bool) (N : Nat) (t : Int) (s : Sim) : Sim :=
  let r := update_phase use_conductance_based N t s
  propagate use_conductance_based N r.2 r.1

/-- The first `k` iterations of the loop of `simulate`, `t = 0, ..., k - 1`. -/
def simulate_loop (use_conductance_based : Bool) (N : Nat) : Nat → Sim → Sim
  | 0, s => s
  | k + 1, s =>
    simulate_step use_conductance_based N (k : Int)
      (simulate_loop use_conductance_based N k s)

/-- Function `simulate`: `steps` iterations. -/
def simulate (use_conductance_based : Bool) (N : Nat) (s : Sim) : Sim :=
  simulate_loop use_conductance_based N steps.toNat s

/-- Function `save_spikes`: the records written, one `time,id` line per entry
of `spike_times`. -/
def save_spikes (s : Sim) : List (ℚ × Nat) :=
  s.spike_times.map (fun e => (e.2, e.1))

/-! ## Sequences of calls on one neuron -/

/-- A call made on a neuron: `update(t, 0.0, spiked)` or `receive_spike()`. -/
inductive Call where
  | update (t : Int)
  | receive_spike

/-- Apply one call; the flag is `some spiked` for an `update`. -/
def apply_call (use_conductance_based : Bool) (st : Neuron × Rng) :
    Call → (Neuron × Rng) × Option Bool
  | Call.update t =>
    let r := st.1.update use_conductance_based t 0 st.2
    ((r.1, r.2.2), some r.2.1)
  | Call.receive_spike => ((st.1.receive_spike use_conductance_based, st.2), none)

/-- State after a sequence of calls. -/
def run_calls (use_conductance_based : Bool) (st : Neuron × Rng) (cs : List Call) :
    Neuron × Rng :=
  cs.foldl (fun a c => (apply_call use_conductance_based a c).1) st

/-- The values of `spiked` reported by the `update` calls of a sequence, in
call order. -/
def spiked_flags (use_conductance_based : Bool) :
    Neuron × Rng → List Call → List Bool
  | _, [] => []
  | st, c :: cs =>
    let r := apply_call use_conductance_based st c
    match r.2 with
    | some b => b :: spiked_flags use_conductance_based r.1 cs
    | none => spiked_flags use_conductance_based r.1 cs

/-! ## Notions used to state the properties -/

/-- The refractory invariant of a neuron state. -/
def RefractoryInv (n : Neuron) : Prop :=
  0 ≤ n.refract_timer ∧ (0 < n.refract_timer → n.V = V_rest)

/-- Position, among the draws made by `connect_neurons`, of the draw for the
ordered pair `(i, j)` with `i ≠ j`: row-major order, the diagonal left out. -/
def draw_index (N i j : Nat) : Nat :=
  i * (N - 1) + (if j < i then j else j - 1)

/-- The target list the drawn graph gives neuron `i`: the `j` in `[0, N)`
other than `i` whose draw succeeded, in ascending order.  The generator is
the one `connect_neurons` starts from. -/
def drawn_targets (N : Nat) (rng : Rng) (i : Nat) : List Nat :=
  (List.range N).filter
    (fun j => decide (j ≠ i) && rng.bernoulli (rng.calls + draw_index N i j))

/-- Append `j` to the target list of a neuron (`post_synaptic.push_back(j)`). -/
def push_target (j : Nat) (n : Neuron) : Neuron :=
  { n with post_synaptic := n.post_synaptic ++ [j] }

/-- Append a list of targets to the target list of a neuron. -/
def push_targets (js : List Nat) (n : Neuron) : Neuron :=
  { n with post_synaptic := n.post_synaptic ++ js }

/-- The target list of neuron `i` of a population (empty outside the
vector). -/
def targets_of (ns : List Neuron) (i : Nat) : List Nat :=
  match ns[i]? with
  | some n => n.post_synaptic
  | none => []

/-- Number of pairs `(i, k)`, `i` taken from `order`, such that neuron `i`
fired and `post_synaptic[i][k] = j`: the number of spikes delivered to `j`. -/
def incoming (fired : List Bool) (ns : List Neuron) (order : List Nat) (j : Nat) : Nat :=
  (order.map (fun i => if fired.getD i false then (targets_of ns i).count j else 0)).sum

/-- Number of neurons of index below `j` that are active (timer not
positive) in a population: each of them consumes one draw in its `update`. -/
def active_before (ns : List Neuron) (j : Nat) : Nat :=
  (ns.take j).countP (fun n => decide (¬ n.refract_timer > 0))

/-- The generator as neuron `k` finds it in the update phase started in state
`s`: the lower-indexed active neurons have each consumed one draw. -/
def rng_at (s : Sim) (k : Nat) : Rng :=
  { s.rng with calls := s.rng.calls + active_before s.neurons k }

/-- Whether the `update` of neuron `k` on its own start-of-step state reports
a spike. -/
def fires_at (use_conductance_based : Bool) (t : Int) (s : Sim) (k : Nat) : Bool :=
  match s.neurons[k]? with
  | some n => (n.update use_conductance_based t 0 (rng_at s k)).2.1
  | none => false

/-- Consecutive entries of a spike record come from step indices at least
`ref_steps` apart. -/
def Spaced (h : List ℚ) : Prop :=
  List.Chain' (fun a b => ∃ ta tb : Int, a = (ta : ℚ) * dt ∧ b = (tb : ℚ) * dt
    ∧ ta + ref_steps ≤ tb) h

/-- Invariant of a neuron before step `t` of the simulation: the timer lies
in `[0, ref_steps]`, the record is spaced, and its last entry is a step far
enough in the past for the part of the refractory period already served. -/
def HistInv (t : Int) (n : Neuron) : Prop :=
  0 ≤ n.refract_timer ∧ n.refract_timer ≤ ref_steps ∧ Spaced n.spike_history ∧
  ∀ e ∈ n.spike_history.getLast?, ∃ tl : Int, e = (tl : ℚ) * dt
    ∧ tl + (ref_steps - n.refract_timer) + 1 ≤ t

/-- The mode-dependent candidate potential that `update` compares with
`V_th`, written out from the pre-step state: conductance-based
`V + (dt/tau_m) * (-(V - V_rest) + R_m * g * (E_rev - V))`, current-based
`V + (dt/tau_m) * (-(V - V_rest) + R_m * I')` with the decayed current
`I' = I_syn - (I_syn/tau_s) * dt`. -/
def candidate (use_conductance_based : Bool) (n : Neuron) : ℚ :=
  if use_conductance_based then
    n.V + dt / tau_m * (-(n.V - V_rest) + R_m * n.g * (E_rev - n.V))
  else
    n.V + dt / tau_m * (-(n.V - V_rest) + R_m * (n.I_syn - (n.I_syn / tau_s) * dt))

/-- The sub-threshold band: non-negative accumulators and
`V_rest ≤ V < V_th`. -/
def SubThreshold (n : Neuron) : Prop :=
  0 ≤ n.g ∧ 0 ≤ n.I_syn ∧ V_rest ≤ n.V ∧ n.V < V_th

/-- The entries appended to `spike_times` by the update phase of step `t`
started in state `s`: one `(i, t*dt)` for each neuron whose update fires, in
increasing index order. -/
def step_log (use_conductance_based : Bool) (N : Nat) (t : Int) (s : Sim) :
    List (Nat × ℚ) :=
  ((List.range N).filter (fires_at use_conductance_based t s)).map
    (fun i => (i, (t : ℚ) * dt))

/-- The entries appended to `spike_times` by the first `k` iterations of
`simulate` started in state `s`. -/
def run_log (use_conductance_based : Bool) (N : Nat) (s : Sim) : Nat → List (Nat × ℚ)
  | 0 => []
  | k + 1 =>
    run_log use_conductance_based N s k
      ++ step_log use_conductance_based N (k : Int)
          (simulate_loop use_conductance_based N k s)

/-- Number of pairs `(t, i)` with `t < k` and `i < N` for which the flag
`fired[i]` of step `t`, as left by `Neuron::update`, is set. -/
def fired_pairs (use_conductance_based : Bool) (N : Nat) (s : Sim) : Nat → Nat
  | 0 => 0
  | k + 1 =>
    fired_pairs use_conductance_based N s k
      + (update_phase use_conductance_based N (k : Int)
          (simulate_loop use_conductance_based N k s)).2.count true

/-- Emission order of two log entries: the first comes from an earlier step,
or from the same step and a smaller neuron index. -/
def LogOrder (e1 e2 : Nat × ℚ) : Prop :=
  ∃ ta tb : Nat, e1.2 = (ta : ℚ) * dt ∧ e2.2 = (tb : ℚ) * dt
    ∧ (ta < tb ∨ (ta = tb ∧ e1.1 < e2.1))

/-- State of a neuron that has never received a spike in a network without
connections: zero accumulators, resting potential, no targets, a
non-negative timer. -/
def Unstimulated (n : Neuron) : Prop :=
  n.g = 0 ∧ n.I_syn = 0 ∧ n.V = V_rest ∧ n.post_synaptic = [] ∧ 0 ≤ n.refract_timer

/-- The synaptic accumulator of the mode: `g` in conductance-based mode,
`I_syn` in current-based mode. -/
def accumulator (use_conductance_based : Bool) (n : Neuron) : ℚ :=
  if use_conductance_based then n.g else n.I_syn

/-- A network of two initial neurons with the given target lists, an empty
raster and the given generator. -/
def two_neurons (ps0 ps1 : List Nat) (rng : Rng) : Sim :=
  { neurons := [{ post_synaptic := ps0 }, { post_synaptic := ps1 }]
    spike_times := []
    rng := rng }

/-! ## Basic facts about the constants -/

theorem ref_steps_eq : ref_steps = 20 := by
  unfold ref_steps static_cast_int tau_ref dt
  rw [if_pos (by norm_num), Int.floor_eq_iff]
  norm_num

theorem steps_eq : steps = 10000 := by
  unfold steps static_cast_int T dt
  rw [if_pos (by norm_num), Int.floor_eq_iff]
  norm_num


/-! ## Single-neuron properties -/

theorem ref_steps_nonneg : 0 ≤ ref_steps := by
  rw [ref_steps_eq]; decide

/-! The four paths through `Neuron::update`. -/

theorem update_refractory (m : Bool) (n : Neuron) (t : Int) (ci : ℚ) (rng : Rng)
    (hr : n.refract_timer > 0) :
    n.update m t ci rng
      = ({ n with refract_timer := n.refract_timer - 1, V := V_rest }, false, rng) := by
  unfold Neuron.update
  rw [if_pos hr]

theorem update_spontaneous (m : Bool) (n : Neuron) (t : Int) (ci : ℚ) (rng : Rng)
    (hr : ¬ n.refract_timer > 0) (hs : rng.uniform rng.calls < p_s) :
    n.update m t ci rng = (n.fire t, true, (uni rng).2) := by
  unfold Neuron.update
  rw [if_neg hr]
  show (if (uni rng).1 < p_s then _ else _) = _
  rw [if_pos (show (uni rng).1 < p_s from hs)]

theorem update_threshold (m : Bool) (n : Neuron) (t : Int) (ci : ℚ) (rng : Rng)
    (hr : ¬ n.refract_timer > 0) (hs : ¬ rng.uniform rng.calls < p_s)
    (hv : (Neuron.integrate m n).V ≥ V_th) :
    n.update m t ci rng = ((Neuron.integrate m n).fire t, true, (uni rng).2) := by
  unfold Neuron.update
  rw [if_neg hr]
  show (if (uni rng).1 < p_s then _ else _) = _
  rw [if_neg (show ¬ (uni rng).1 < p_s from hs)]
  show (if (Neuron.integrate m n).V ≥ V_th then _ else _) = _
  rw [if_pos hv]

theorem update_quiet (m : Bool) (n : Neuron) (t : Int) (ci : ℚ) (rng : Rng)
    (hr : ¬ n.refract_timer > 0) (hs : ¬ rng.uniform rng.calls < p_s)
    (hv : ¬ (Neuron.integrate m n).V ≥ V_th) :
    n.update m t ci rng = (Neuron.integrate m n, false, (uni rng).2) := by
  unfold Neuron.update
  rw [if_neg hr]
  show (if (uni rng).1 < p_s then _ else _) = _
  rw [if_neg (show ¬ (uni rng).1 < p_s from hs)]
  show (if (Neuron.integrate m n).V ≥ V_th then _ else _) = _
  rw [if_neg hv]

theorem integrate_refract_timer (m : Bool) (n : Neuron) :
    (Neuron.integrate m n).refract_timer = n.refract_timer := by
  unfold Neuron.integrate; cases m <;> rfl

theorem integrate_spike_history (m : Bool) (n : Neuron) :
    (Neuron.integrate m n).spike_history = n.spike_history := by
  unfold Neuron.integrate; cases m <;> rfl

theorem integrate_post_synaptic (m : Bool) (n : Neuron) :
    (Neuron.integrate m n).post_synaptic = n.post_synaptic := by
  unfold Neuron.integrate; cases m <;> rfl

theorem integrate_g (m : Bool) (n : Neuron) : (Neuron.integrate m n).g = n.g := by
  unfold Neuron.integrate; cases m <;> rfl

theorem update_refractoryInv (m : Bool) (n : Neuron) (t : Int) (ci : ℚ) (rng : Rng)
    (h : RefractoryInv n) : RefractoryInv (n.update m t ci rng).1 := by
  obtain ⟨h0, _⟩ := h
  by_cases hr : n.refract_timer > 0
  · rw [update_refractory m n t ci rng hr]
    exact ⟨by show 0 ≤ n.refract_timer - 1; omega, fun _ => rfl⟩
  · by_cases hs : rng.uniform rng.calls < p_s
    · rw [update_spontaneous m n t ci rng hr hs]
      exact ⟨ref_steps_nonneg, fun _ => rfl⟩
    · by_cases hv : (Neuron.integrate m n).V ≥ V_th
      · rw [update_threshold m n t ci rng hr hs hv]
        exact ⟨ref_steps_nonneg, fun _ => rfl⟩
      · rw [update_quiet m n t ci rng hr hs hv]
        refine ⟨by rw [integrate_refract_timer]; exact h0, fun hp => ?_⟩
        rw [integrate_refract_timer] at hp
        exact absurd hp hr

theorem receive_spike_refractoryInv (m : Bool) (n : Neuron) (h : RefractoryInv n) :
    RefractoryInv (n.receive_spike m) := by
  unfold Neuron.receive_spike
  cases m <;> exact h

theorem run_calls_refractoryInv (m : Bool) (cs : List Call) :
    ∀ st : Neuron × Rng, RefractoryInv st.1 → RefractoryInv (run_calls m st cs).1 := by
  induction cs with
  | nil => intro st h; exact h
  | cons c cs ih =>
    intro st h
    show RefractoryInv (run_calls m (apply_call m st c).1 cs).1
    apply ih
    cases c with
    | update t => exact update_refractoryInv m st.1 t 0 st.2 h
    | receive_spike => exact receive_spike_refractoryInv m st.1 h

/-- C2 (refractory invariant): in every state reached from an initial neuron
(V = V_rest, g = 0, I_syn = 0, refract_timer = 0; any target list) by any
sequence of `update` and `receive_spike` calls, for any draws and in either
mode, the timer is non-negative and a positive timer implies V = V_rest. -/
theorem C2_refractory_invariant (use_conductance_based : Bool) (targets : List Nat)
    (rng : Rng) (cs : List Call) :
    0 ≤ (run_calls use_conductance_based
          ({ post_synaptic := targets }, rng) cs).1.refract_timer ∧
    (0 < (run_calls use_conductance_based
          ({ post_synaptic := targets }, rng) cs).1.refract_timer →
      (run_calls use_conductance_based
          ({ post_synaptic := targets }, rng) cs).1.V = V_rest) :=
  run_calls_refractoryInv use_conductance_based cs _
    ⟨le_refl _, fun h => absurd h (lt_irrefl _)⟩

/-- C3 (fire postcondition): whenever `update` reports fired, the resulting
state has V = V_rest, the timer equal to ref_steps (which is 20) and the spike
history extended by t*dt as last element; whenever it reports not fired the
spike history is unchanged. -/
theorem C3_fire_postcondition (use_conductance_based : Bool) (n : Neuron) (t : Int)
    (current_input : ℚ) (rng : Rng) :
    ((n.update use_conductance_based t current_input rng).2.1 = true →
      (n.update use_conductance_based t current_input rng).1.V = V_rest ∧
      (n.update use_conductance_based t current_input rng).1.refract_timer = ref_steps ∧
      ref_steps = 20 ∧
      (n.update use_conductance_based t current_input rng).1.spike_history
        = n.spike_history ++ [(t : ℚ) * dt]) ∧
    ((n.update use_conductance_based t current_input rng).2.1 = false →
      (n.update use_conductance_based t current_input rng).1.spike_history
        = n.spike_history) := by
  by_cases hr : n.refract_timer > 0
  · rw [update_refractory _ n t _ rng hr]
    exact ⟨fun h => (by cases h), fun _ => rfl⟩
  · by_cases hs : rng.uniform rng.calls < p_s
    · rw [update_spontaneous _ n t _ rng hr hs]
      exact ⟨fun _ => ⟨rfl, rfl, ref_steps_eq, rfl⟩, fun h => by cases h⟩
    · by_cases hv : (Neuron.integrate use_conductance_based n).V ≥ V_th
      · rw [update_threshold _ n t _ rng hr hs hv]
        refine ⟨fun _ => ⟨rfl, rfl, ref_steps_eq, ?_⟩, fun h => by cases h⟩
        show (Neuron.integrate use_conductance_based n).spike_history ++ _ = _
        rw [integrate_spike_history]
      · rw [update_quiet _ n t _ rng hr hs hv]
        exact ⟨fun h => (by cases h), fun _ => integrate_spike_history _ n⟩

/-- C3 evaluated on a spontaneous fire of the initial neuron at step 7. -/
theorem C3_fire_postcondition_witness :
    (({} : Neuron).update true 7 0 ⟨fun _ => 0, fun _ => false, 0⟩).2.1 = true ∧
    (({} : Neuron).update true 7 0 ⟨fun _ => 0, fun _ => false, 0⟩).1.V = V_rest ∧
    (({} : Neuron).update true 7 0 ⟨fun _ => 0, fun _ => false, 0⟩).1.refract_timer
      = ref_steps ∧
    ref_steps = 20 ∧
    (({} : Neuron).update true 7 0 ⟨fun _ => 0, fun _ => false, 0⟩).1.spike_history
      = [] ++ [((7 : Int) : ℚ) * dt] :=
  have h : (({} : Neuron).update true 7 0 ⟨fun _ => 0, fun _ => false, 0⟩).2.1 = true := by
    rw [update_spontaneous true {} 7 0 _ (by decide) (by norm_num [p_s])]
  ⟨h, (C3_fire_postcondition true {} 7 0 ⟨fun _ => 0, fun _ => false, 0⟩).1 h⟩

/-- C5 (code evaluated at the failing input): in conductance-based mode an
active neuron with g = 1/100, whose draw 1/2 is not below p_s and which
receives no spike, keeps g = 1/100 through `update` (it does not fire);
the decayed value g - (g/tau_s)*dt would be 49/5000.  The decrement
(g/tau_s)*dt is applied to I_syn instead, where the floor at zero absorbs it. -/
theorem C5_conductance_not_decayed :
    (({ g := 1 / 100 } : Neuron).update true 0 0 ⟨fun _ => 1 / 2, fun _ => false, 0⟩).1.g
      = 1 / 100 ∧
    (({ g := 1 / 100 } : Neuron).update true 0 0 ⟨fun _ => 1 / 2, fun _ => false, 0⟩).2.1
      = false ∧
    (({ g := 1 / 100 } : Neuron).update true 0 0 ⟨fun _ => 1 / 2, fun _ => false, 0⟩).1.I_syn
      = 0 ∧
    ({ g := 1 / 100 } : Neuron).refract_timer = 0 ∧
    ¬ ((1 : ℚ) / 2 < p_s) ∧
    (1 : ℚ) / 100 - ((1 : ℚ) / 100 / tau_s) * dt = 49 / 5000 := by
  have hv : ¬ (Neuron.integrate true ({ g := 1 / 100 } : Neuron)).V ≥ V_th := by
    norm_num [Neuron.integrate, V_th, V_rest, dt, tau_m, R_m, E_rev]
  rw [update_quiet true _ 0 0 _ (by decide) (by norm_num [p_s]) hv]
  refine ⟨rfl, rfl, ?_, rfl, by norm_num [p_s], by norm_num [tau_s, dt]⟩
  norm_num [Neuron.integrate, tau_s, dt]

/-- C9 (conductance-based integration step): for an active neuron whose draw
is not below p_s, `update` in conductance-based mode compares the candidate
V + (dt/tau_m) * (-(V - V_rest) + R_m * g * (E_rev - V)), built from the
pre-step V and g, with V_th: it fires exactly when the candidate is at least
V_th, and a candidate below V_th becomes the new V. -/
theorem C9_conductance_integration (n : Neuron) (t : Int) (current_input : ℚ) (rng : Rng)
    (hactive : n.refract_timer = 0) (hdraw : ¬ rng.uniform rng.calls < p_s) :
    ((n.update true t current_input rng).2.1 = true ↔
      n.V + dt / tau_m * (-(n.V - V_rest) + R_m * n.g * (E_rev - n.V)) ≥ V_th) ∧
    (n.V + dt / tau_m * (-(n.V - V_rest) + R_m * n.g * (E_rev - n.V)) < V_th →
      (n.update true t current_input rng).1.V
        = n.V + dt / tau_m * (-(n.V - V_rest) + R_m * n.g * (E_rev - n.V))) := by
  have hr : ¬ n.refract_timer > 0 := by rw [hactive]; decide
  have hV : (Neuron.integrate true n).V
      = n.V + dt / tau_m * (-(n.V - V_rest) + R_m * n.g * (E_rev - n.V)) := rfl
  by_cases hv : (Neuron.integrate true n).V ≥ V_th
  · rw [update_threshold true n t _ rng hr hdraw hv]
    rw [hV] at hv
    exact ⟨⟨fun _ => hv, fun _ => rfl⟩, fun hlt => absurd hv (not_le.mpr hlt)⟩
  · rw [update_quiet true n t _ rng hr hdraw hv]
    rw [hV] at hv
    exact ⟨⟨fun h => (by cases h), fun h => absurd h hv⟩, fun _ => rfl⟩

/-- C9 evaluated on the initial neuron with g = 1/100 and draw 1/2: the
candidate -699993/10000 is below V_th and becomes the new V, no spike. -/
theorem C9_conductance_integration_witness :
    ({ g := 1 / 100 } : Neuron).refract_timer = 0 ∧
    ¬ ((1 : ℚ) / 2 < p_s) ∧
    ¬ ((({ g := 1 / 100 } : Neuron).update true 3 0
          ⟨fun _ => 1 / 2, fun _ => false, 0⟩).2.1 = true) ∧
    (({ g := 1 / 100 } : Neuron).update true 3 0
          ⟨fun _ => 1 / 2, fun _ => false, 0⟩).1.V = -699993 / 10000 := by
  have hd : ¬ ((1 : ℚ) / 2 < p_s) := by norm_num [p_s]
  have hc : ({ g := 1 / 100 } : Neuron).V + dt / tau_m *
      (-(({ g := 1 / 100 } : Neuron).V - V_rest)
        + R_m * ({ g := 1 / 100 } : Neuron).g * (E_rev - ({ g := 1 / 100 } : Neuron).V))
      = -699993 / 10000 := by
    norm_num [V_rest, dt, tau_m, R_m, E_rev]
  have h := C9_conductance_integration { g := 1 / 100 } 3 0
    ⟨fun _ => 1 / 2, fun _ => false, 0⟩ rfl hd
  rw [hc] at h
  exact ⟨rfl, hd, fun hf => absurd (h.1.mp hf) (by norm_num [V_th]),
    h.2 (by norm_num [V_th])⟩

/-- C10 (current-based integration step): for an active neuron whose draw is
not below p_s, `update` in current-based mode stores the decayed current
I_syn - (I_syn/tau_s)*dt (no floor), leaves g unchanged, and
compares the candidate V + (dt/tau_m) * (-(V - V_rest) + R_m * decayed current)
with V_th: it fires exactly when the candidate is at least V_th, and a
candidate below V_th becomes the new V. -/
theorem C10_current_integration (n : Neuron) (t : Int) (current_input : ℚ) (rng : Rng)
    (hactive : n.refract_timer = 0) (hdraw : ¬ rng.uniform rng.calls < p_s) :
    (n.update false t current_input rng).1.I_syn = n.I_syn - (n.I_syn / tau_s) * dt ∧
    (n.update false t current_input rng).1.g = n.g ∧
    ((n.update false t current_input rng).2.1 = true ↔
      n.V + dt / tau_m * (-(n.V - V_rest) + R_m * (n.I_syn - (n.I_syn / tau_s) * dt))
        ≥ V_th) ∧
    (n.V + dt / tau_m * (-(n.V - V_rest) + R_m * (n.I_syn - (n.I_syn / tau_s) * dt))
        < V_th →
      (n.update false t current_input rng).1.V
        = n.V + dt / tau_m * (-(n.V - V_rest) + R_m * (n.I_syn - (n.I_syn / tau_s) * dt))) := by
  have hr : ¬ n.refract_timer > 0 := by rw [hactive]; decide
  have hI : (Neuron.integrate false n).I_syn = n.I_syn - (n.I_syn / tau_s) * dt := by
    show n.I_syn + -(n.I_syn / tau_s) * dt = _
    ring
  have hV : (Neuron.integrate false n).V
      = n.V + dt / tau_m * (-(n.V - V_rest) + R_m * (n.I_syn - (n.I_syn / tau_s) * dt)) := by
    show n.V + dt / tau_m * (-(n.V - V_rest) + R_m * (n.I_syn + -(n.I_syn / tau_s) * dt)) = _
    ring
  by_cases hv : (Neuron.integrate false n).V ≥ V_th
  · rw [update_threshold false n t _ rng hr hdraw hv]
    rw [hV] at hv
    exact ⟨hI, rfl, ⟨fun _ => hv, fun _ => rfl⟩, fun hlt => absurd hv (not_le.mpr hlt)⟩
  · rw [update_quiet false n t _ rng hr hdraw hv]
    rw [hV] at hv
    exact ⟨hI, rfl, ⟨fun h => (by cases h), fun h => absurd h hv⟩, fun _ => hV⟩

/-- C10 evaluated on the initial neuron with I_syn = 1/10000 and draw 1/2:
the current becomes 49/500000, g stays 0, and the candidate
-69.999999902 is below V_th and becomes the new V. -/
theorem C10_current_integration_witness :
    ({ I_syn := 1 / 10000 } : Neuron).refract_timer = 0 ∧
    ¬ ((1 : ℚ) / 2 < p_s) ∧
    (({ I_syn := 1 / 10000 } : Neuron).update false 3 0
          ⟨fun _ => 1 / 2, fun _ => false, 0⟩).1.I_syn = 49 / 500000 ∧
    (({ I_syn := 1 / 10000 } : Neuron).update false 3 0
          ⟨fun _ => 1 / 2, fun _ => false, 0⟩).1.g = 0 ∧
    (({ I_syn := 1 / 10000 } : Neuron).update false 3 0
          ⟨fun _ => 1 / 2, fun _ => false, 0⟩).1.V = -34999999951 / 500000000 := by
  have hd : ¬ ((1 : ℚ) / 2 < p_s) := by norm_num [p_s]
  have hi : ({ I_syn := 1 / 10000 } : Neuron).I_syn
      - (({ I_syn := 1 / 10000 } : Neuron).I_syn / tau_s) * dt = 49 / 500000 := by
    norm_num [tau_s, dt]
  have hc : ({ I_syn := 1 / 10000 } : Neuron).V + dt / tau_m *
      (-(({ I_syn := 1 / 10000 } : Neuron).V - V_rest) + R_m * (49 / 500000))
      = -34999999951 / 500000000 := by
    norm_num [V_rest, dt, tau_m, R_m]
  have h := C10_current_integration { I_syn := 1 / 10000 } 3 0
    ⟨fun _ => 1 / 2, fun _ => false, 0⟩ rfl hd
  rw [hi, hc] at h
  exact ⟨rfl, hd, h.1, h.2.1, h.2.2.2 (by norm_num [V_th])⟩

/-! ## Connectivity -/

theorem connect_pair_rng (i : Nat) (s : Sim) (j : Nat) :
    (connect_pair i s j).rng
      = if i ≠ j then { s.rng with calls := s.rng.calls + 1 } else s.rng := by
  unfold connect_pair
  by_cases h : i ≠ j
  · rw [if_pos h, if_pos h]
    show Sim.rng (if (conn_dist s.rng).1 = true then _ else _) = _
    split
    · split <;> rfl
    · rfl
  · rw [if_neg h, if_neg h]

theorem connect_pair_spike_times (i : Nat) (s : Sim) (j : Nat) :
    (connect_pair i s j).spike_times = s.spike_times := by
  unfold connect_pair
  by_cases h : i ≠ j
  · rw [if_pos h]
    show Sim.spike_times (if (conn_dist s.rng).1 = true then _ else _) = _
    split
    · split <;> rfl
    · rfl
  · rw [if_neg h]

theorem connect_pair_neurons (i : Nat) (s : Sim) (j : Nat) :
    (connect_pair i s j).neurons
      = if i ≠ j ∧ s.rng.bernoulli s.rng.calls = true then
          match s.neurons[i]? with
          | some n => s.neurons.set i (push_target j n)
          | none => s.neurons
        else s.neurons := by
  unfold connect_pair
  by_cases h : i ≠ j
  · rw [if_pos h]
    show Sim.neurons (if (conn_dist s.rng).1 = true then _ else _) = _
    by_cases hb : s.rng.bernoulli s.rng.calls = true
    · rw [if_pos (show (conn_dist s.rng).1 = true from hb), if_pos ⟨h, hb⟩]
      split <;> rfl
    · rw [if_neg (show ¬ (conn_dist s.rng).1 = true from hb), if_neg (fun c => hb c.2)]
  · rw [if_neg h, if_neg (fun c => h c.1)]

theorem set_of_getElem? {α : Type} (l : List α) (i : Nat) (a : α) (h : l[i]? = some a) :
    l.set i a = l := by
  apply List.ext_getElem?
  intro k
  rw [List.getElem?_set]
  by_cases hk : i = k
  · subst hk
    rw [if_pos rfl, h]
    have hi : i < l.length := by
      rcases Nat.lt_or_ge i l.length with hlt | hge
      · exact hlt
      · rw [List.getElem?_eq_none hge] at h; cases h
    rw [if_pos hi]
  · rw [if_neg hk]

theorem getElem?_set_same {α : Type} (l : List α) (i : Nat) (a b : α) (h : l[i]? = some a) :
    (l.set i b)[i]? = some b := by
  rw [List.getElem?_set, if_pos rfl]
  have hi : i < l.length := by
    rcases Nat.lt_or_ge i l.length with hlt | hge
    · exact hlt
    · rw [List.getElem?_eq_none hge] at h; cases h
  rw [if_pos hi]

theorem push_targets_nil (n : Neuron) : push_targets [] n = n := by
  unfold push_targets
  rw [List.append_nil]

theorem push_target_push_targets (j : Nat) (js : List Nat) (n : Neuron) :
    push_target j (push_targets js n) = push_targets (js ++ [j]) n := by
  unfold push_target push_targets
  simp only [List.append_assoc]

/-- Selection function of row `i`: `j` is kept when it differs from `i` and
the draw at offset `j` (or `j - 1` beyond the diagonal) from `c` succeeded. -/
theorem row_filter_succ (b : Nat → Bool) (c i m : Nat) :
    (List.range (m + 1)).filter
        (fun j => decide (j ≠ i) && b (c + (if j < i then j else j - 1)))
      = (List.range m).filter
          (fun j => decide (j ≠ i) && b (c + (if j < i then j else j - 1)))
        ++ (if m ≠ i ∧ b (c + (if m < i then m else m - 1)) = true then [m] else []) := by
  rw [List.range_succ, List.filter_append]
  congr 1
  by_cases h : m ≠ i ∧ b (c + (if m < i then m else m - 1)) = true
  · rw [if_pos h]
    simp [List.filter_cons, h.1, h.2]
  · rw [if_neg h]
    rw [not_and_or] at h
    rcases h with h | h
    · simp [List.filter_cons, not_not.mp h]
    · simp [List.filter_cons, h]

theorem connect_row_prefix (i : Nat) (m : Nat) (s : Sim) :
    ((List.range m).foldl (connect_pair i) s).rng
        = { s.rng with calls := s.rng.calls + (m - if i < m then 1 else 0) } ∧
    ((List.range m).foldl (connect_pair i) s).spike_times = s.spike_times ∧
    ((List.range m).foldl (connect_pair i) s).neurons
        = match s.neurons[i]? with
          | some n =>
            s.neurons.set i (push_targets ((List.range m).filter
              (fun j => decide (j ≠ i)
                && s.rng.bernoulli (s.rng.calls + (if j < i then j else j - 1)))) n)
          | none => s.neurons := by
  induction m with
  | zero =>
    refine ⟨?_, rfl, ?_⟩
    · simp
    · cases hn : s.neurons[i]? with
      | none => simp
      | some n =>
        simp only [List.range_zero, List.foldl_nil, List.filter_nil]
        rw [push_targets_nil, set_of_getElem? _ _ _ hn]
  | succ m ih =>
    obtain ⟨ih1, ih2, ih3⟩ := ih
    rw [List.range_succ, List.foldl_append]
    simp only [List.foldl_cons, List.foldl_nil]
    rw [← List.range_succ]
    generalize (List.range m).foldl (connect_pair i) s = r at ih1 ih2 ih3
    have hcalls : r.rng.calls = s.rng.calls + (m - if i < m then 1 else 0) := by
      rw [ih1]
    have hbern : r.rng.bernoulli = s.rng.bernoulli := by rw [ih1]
    refine ⟨?_, ?_, ?_⟩
    · rw [connect_pair_rng, ih1]
      by_cases h : i ≠ m
      · rw [if_pos h]
        have : (m - if i < m then 1 else 0) + 1 = (m + 1 - if i < m + 1 then 1 else 0) := by
          split_ifs <;> omega
        simp only [← this, Nat.add_assoc]
      · rw [if_neg h]
        have : (m - if i < m then 1 else 0) = (m + 1 - if i < m + 1 then 1 else 0) := by
          split_ifs <;> omega
        rw [← this]
    · rw [connect_pair_spike_times, ih2]
    · rw [connect_pair_neurons, row_filter_succ, hcalls, hbern]
      by_cases hmi : m = i
      · rw [if_neg (fun c => c.1 hmi.symm), if_neg (fun c => c.1 hmi), ih3, List.append_nil]
      · have hidx : s.rng.calls + (m - if i < m then 1 else 0)
            = s.rng.calls + (if m < i then m else m - 1) := by
          split_ifs <;> omega
        rw [hidx]
        by_cases hb : s.rng.bernoulli (s.rng.calls + (if m < i then m else m - 1)) = true
        · rw [if_pos ⟨Ne.symm hmi, hb⟩, if_pos ⟨hmi, hb⟩, ih3]
          cases hn : s.neurons[i]? with
          | none => simp only [hn]
          | some n =>
            simp only []
            rw [getElem?_set_same _ _ _ _ hn]
            simp only []
            rw [List.set_set, push_target_push_targets]
        · rw [if_neg (fun c => hb c.2), if_neg (fun c => hb c.2), ih3, List.append_nil]

theorem connect_row_spec (N : Nat) (s : Sim) (i : Nat) (hi : i < N) :
    (connect_row N s i).rng = { s.rng with calls := s.rng.calls + (N - 1) } ∧
    (connect_row N s i).spike_times = s.spike_times ∧
    (connect_row N s i).neurons
        = match s.neurons[i]? with
          | some n =>
            s.neurons.set i (push_targets ((List.range N).filter
              (fun j => decide (j ≠ i)
                && s.rng.bernoulli (s.rng.calls + (if j < i then j else j - 1)))) n)
          | none => s.neurons := by
  obtain ⟨h1, h2, h3⟩ := connect_row_prefix i N s
  refine ⟨?_, h2, h3⟩
  unfold connect_row
  rw [h1, if_pos hi]

theorem connect_rows_prefix (N : Nat) (s : Sim) (m : Nat) (hm : m ≤ N) :
    ((List.range m).foldl (connect_row N) s).rng
        = { s.rng with calls := s.rng.calls + m * (N - 1) } ∧
    ((List.range m).foldl (connect_row N) s).spike_times = s.spike_times ∧
    ((List.range m).foldl (connect_row N) s).neurons.length = s.neurons.length ∧
    ∀ k, ((List.range m).foldl (connect_row N) s).neurons[k]?
        = if k < m then (s.neurons[k]?).map (push_targets (drawn_targets N s.rng k))
          else s.neurons[k]? := by
  induction m with
  | zero =>
    refine ⟨by simp, rfl, rfl, fun k => ?_⟩
    simp
  | succ m ih =>
    obtain ⟨ih1, ih2, ih3, ih4⟩ := ih (Nat.le_of_succ_le hm)
    rw [List.range_succ, List.foldl_append]
    simp only [List.foldl_cons, List.foldl_nil]
    generalize (List.range m).foldl (connect_row N) s = r at ih1 ih2 ih3 ih4
    obtain ⟨h1, h2, h3⟩ := connect_row_spec N r m hm
    have hF : (List.range N).filter (fun j => decide (j ≠ m)
          && r.rng.bernoulli (r.rng.calls + (if j < m then j else j - 1)))
        = drawn_targets N s.rng m := by
      unfold drawn_targets draw_index
      rw [ih1]
      simp only [Nat.add_assoc]
    rw [hF] at h3
    refine ⟨?_, by rw [h2, ih2], ?_, fun k => ?_⟩
    · rw [h1, ih1]
      simp only [Nat.succ_mul, Nat.add_assoc]
    · rw [h3]
      cases hn : r.neurons[m]? with
      | none => exact ih3
      | some n => simp only []; rw [List.length_set, ih3]
    · rw [h3]
      have hm4 := ih4 m
      rw [if_neg (Nat.lt_irrefl m)] at hm4
      by_cases hk : k = m
      · subst hk
        rw [if_pos (Nat.lt_succ_self k)]
        cases hn : r.neurons[k]? with
        | none => simp only []; rw [hn, ← hm4, hn]; rfl
        | some n =>
          simp only []
          rw [getElem?_set_same _ _ _ _ hn, ← hm4, hn]
          rfl
      · have e : r.neurons[k]? = if k < m + 1 then
            (s.neurons[k]?).map (push_targets (drawn_targets N s.rng k))
            else s.neurons[k]? := by
          rw [ih4 k]
          by_cases hlt : k < m
          · rw [if_pos hlt, if_pos (Nat.lt_succ_of_lt hlt)]
          · rw [if_neg hlt, if_neg (by omega)]
        cases hn : r.neurons[m]? with
        | none => simp only []; exact e
        | some n =>
          simp only []
          rw [List.getElem?_set_ne (Ne.symm hk)]
          exact e

theorem connect_neurons_spec (N : Nat) (s : Sim) :
    (connect_neurons N s).rng = { s.rng with calls := s.rng.calls + N * (N - 1) } ∧
    (connect_neurons N s).spike_times = s.spike_times ∧
    (connect_neurons N s).neurons.length = s.neurons.length ∧
    ∀ k, k < N → (connect_neurons N s).neurons[k]?
        = (s.neurons[k]?).map (push_targets (drawn_targets N s.rng k)) := by
  obtain ⟨h1, h2, h3, h4⟩ := connect_rows_prefix N s N (le_refl N)
  refine ⟨h1, h2, h3, fun k hk => ?_⟩
  have := h4 k
  rw [if_pos hk] at this
  exact this

theorem draw_index_row (N i j : Nat) (hi : i < N) (hj : j < N) (hij : i ≠ j) :
    draw_index N i j < (i + 1) * (N - 1) := by
  unfold draw_index
  rw [Nat.succ_mul]
  split_ifs <;> omega

theorem draw_index_lt (N i j : Nat) (hi : i < N) (hj : j < N) (hij : i ≠ j) :
    draw_index N i j < N * (N - 1) :=
  lt_of_lt_of_le (draw_index_row N i j hi hj hij) (Nat.mul_le_mul_right _ hi)

theorem draw_index_lex (N i j i2 j2 : Nat) (hi : i < N) (hj : j < N) (hij : i ≠ j)
    (hij2 : i2 ≠ j2)
    (hlex : i < i2 ∨ (i = i2 ∧ j < j2)) :
    draw_index N i j < draw_index N i2 j2 := by
  rcases hlex with h | ⟨h1, h2⟩
  · have h3 : (i + 1) * (N - 1) ≤ i2 * (N - 1) := Nat.mul_le_mul_right _ h
    have h4 := draw_index_row N i j hi hj hij
    have h5 : i2 * (N - 1) ≤ draw_index N i2 j2 := Nat.le_add_right _ _
    omega
  · subst h1
    unfold draw_index
    split_ifs <;> omega

theorem post_synaptic_of_empty (s : Sim) (k : Nat) (n : Neuron) (js : List Nat)
    (hempty : ∀ a ∈ s.neurons, a.post_synaptic = [])
    (h : (s.neurons[k]?).map (push_targets js) = some n) : n.post_synaptic = js := by
  cases hk : s.neurons[k]? with
  | none => rw [hk] at h; cases h
  | some a =>
    rw [hk] at h
    have ha : a.post_synaptic = [] := hempty a (List.getElem?_mem hk)
    cases h
    show a.post_synaptic ++ js = js
    rw [ha, List.nil_append]

/-- C6 (connect_neurons builds exactly the drawn graph): from N neurons with
empty target lists, `connect_neurons` consumes N*(N-1) draws; the draw of the
ordered pair (i, j), i ≠ j, is the one at position draw_index N i j, these
positions lie below N*(N-1) and increase in row-major order (so every
off-diagonal pair has its own draw and the diagonal has none); afterwards the
target list of neuron i is the ascending list of the j in [0, N), j ≠ i, whose
draw succeeded: it does not contain i, has no duplicates and only indices
below N. -/
theorem C6_connect_neurons_drawn_graph (N : Nat) (s : Sim)
    (hlen : s.neurons.length = N) (hempty : ∀ a ∈ s.neurons, a.post_synaptic = []) :
    (connect_neurons N s).rng.calls = s.rng.calls + N * (N - 1) ∧
    (connect_neurons N s).rng.bernoulli = s.rng.bernoulli ∧
    (connect_neurons N s).neurons.length = N ∧
    (∀ i j, i < N → j < N → i ≠ j → draw_index N i j < N * (N - 1)) ∧
    (∀ i j i2 j2, i < N → j < N → i ≠ j → i2 ≠ j2 → (i < i2 ∨ (i = i2 ∧ j < j2)) →
      draw_index N i j < draw_index N i2 j2) ∧
    (∀ i, i < N → ∃ n, (connect_neurons N s).neurons[i]? = some n ∧
      n.post_synaptic = (List.range N).filter
        (fun j => decide (j ≠ i) && s.rng.bernoulli (s.rng.calls + draw_index N i j)) ∧
      i ∉ n.post_synaptic ∧ n.post_synaptic.Nodup ∧
      n.post_synaptic.Pairwise (fun a b => a < b) ∧
      ∀ j ∈ n.post_synaptic, j < N) := by
  obtain ⟨h1, _, h3, h4⟩ := connect_neurons_spec N s
  refine ⟨by rw [h1], by rw [h1], by rw [h3, hlen], draw_index_lt N,
    fun i j i2 j2 => draw_index_lex N i j i2 j2, fun i hi => ?_⟩
  have hsome : ∃ n, (connect_neurons N s).neurons[i]? = some n := by
    have hlt : i < (connect_neurons N s).neurons.length := by rw [h3, hlen]; exact hi
    exact ⟨_, List.getElem?_eq_getElem hlt⟩
  obtain ⟨n, hn⟩ := hsome
  have hps : n.post_synaptic = drawn_targets N s.rng i :=
    post_synaptic_of_empty s i n _ hempty (by rw [← h4 i hi, hn])
  refine ⟨n, hn, hps, ?_, ?_, ?_, ?_⟩
  · rw [hps]
    unfold drawn_targets
    intro hmem
    have := (List.mem_filter.mp hmem).2
    simp at this
  · rw [hps]
    exact List.Nodup.filter _ (List.nodup_range N)
  · rw [hps]
    exact List.Pairwise.filter _ (List.pairwise_lt_range N)
  · rw [hps]
    intro j hj
    exact List.mem_range.mp (List.mem_filter.mp hj).1

/-- C6 evaluated on three neurons with alternating draw outcomes. -/
theorem C6_connect_neurons_drawn_graph_witness :
    (init 3 ⟨fun _ => 0, fun k => k % 2 == 0, 0⟩).neurons.length = 3 ∧
    (connect_neurons 3 (init 3 ⟨fun _ => 0, fun k => k % 2 == 0, 0⟩)).rng.calls = 6 ∧
    ∃ n, (connect_neurons 3 (init 3 ⟨fun _ => 0, fun k => k % 2 == 0, 0⟩)).neurons[1]?
        = some n ∧ n.post_synaptic = [0] := by
  have h := C6_connect_neurons_drawn_graph 3 (init 3 ⟨fun _ => 0, fun k => k % 2 == 0, 0⟩)
    rfl (fun a ha => by rw [List.eq_of_mem_replicate ha])
  refine ⟨rfl, h.1, ?_⟩
  obtain ⟨n, hn, hps, _⟩ := h.2.2.2.2.2 1 (by decide)
  exact ⟨n, hn, by rw [hps]; decide⟩

theorem length_filter_ne_range (i N : Nat) :
    ((List.range N).filter (fun j => decide (j ≠ i))).length
      = N - (if i < N then 1 else 0) := by
  induction N with
  | zero => simp
  | succ N ih =>
    rw [List.range_succ, List.filter_append, List.length_append, ih]
    by_cases h : N = i
    · subst h
      simp
    · have : ([N].filter (fun j => decide (j ≠ i))).length = 1 := by
        simp [List.filter_cons, h]
      rw [this]
      split_ifs <;> omega

/-- C7 (full connectivity): when every draw made by `connect_neurons` on N
neurons with empty target lists succeeds, the target list of every neuron i
consists of all indices 0..N-1 other than i, in ascending order, and has
exactly N-1 entries. -/
theorem C7_full_connectivity (N : Nat) (s : Sim)
    (hlen : s.neurons.length = N) (hempty : ∀ a ∈ s.neurons, a.post_synaptic = [])
    (hall : ∀ k, k < N * (N - 1) → s.rng.bernoulli (s.rng.calls + k) = true) :
    ∀ i, i < N → ∃ n, (connect_neurons N s).neurons[i]? = some n ∧
      n.post_synaptic = (List.range N).filter (fun j => decide (j ≠ i)) ∧
      n.post_synaptic.length = N - 1 ∧
      ∀ j, j ∈ n.post_synaptic ↔ (j < N ∧ j ≠ i) := by
  intro i hi
  obtain ⟨_, _, h3, h4⟩ := connect_neurons_spec N s
  have hsome : ∃ n, (connect_neurons N s).neurons[i]? = some n := by
    have hlt : i < (connect_neurons N s).neurons.length := by rw [h3, hlen]; exact hi
    exact ⟨_, List.getElem?_eq_getElem hlt⟩
  obtain ⟨n, hn⟩ := hsome
  have hps : n.post_synaptic = drawn_targets N s.rng i :=
    post_synaptic_of_empty s i n _ hempty (by rw [← h4 i hi, hn])
  have hfull : drawn_targets N s.rng i = (List.range N).filter (fun j => decide (j ≠ i)) := by
    unfold drawn_targets
    apply List.filter_congr
    intro j hj
    by_cases hji : j = i
    · subst hji; simp
    · rw [hall _ (draw_index_lt N i j hi (List.mem_range.mp hj) (Ne.symm hji))]
      simp
  refine ⟨n, hn, by rw [hps, hfull], ?_, fun j => ?_⟩
  · rw [hps, hfull, length_filter_ne_range, if_pos hi]
  · rw [hps, hfull, List.mem_filter, List.mem_range]
    simp

/-- C7 evaluated on three neurons with every draw succeeding. -/
theorem C7_full_connectivity_witness :
    (init 3 ⟨fun _ => 0, fun _ => true, 0⟩).neurons.length = 3 ∧
    ∃ n, (connect_neurons 3 (init 3 ⟨fun _ => 0, fun _ => true, 0⟩)).neurons[1]? = some n ∧
      n.post_synaptic = [0, 2] ∧ n.post_synaptic.length = 3 - 1 := by
  obtain ⟨n, hn, hps, hl, _⟩ :=
    C7_full_connectivity 3 (init 3 ⟨fun _ => 0, fun _ => true, 0⟩) rfl
      (fun a ha => by rw [List.eq_of_mem_replicate ha]) (fun _ _ => rfl) 1 (by decide)
  exact ⟨rfl, n, hn, by rw [hps]; decide, hl⟩

/-! ## Propagation phase -/

theorem deliver_getElem? (m : Bool) (ns : List Neuron) (t k : Nat) :
    (deliver m ns t)[k]?
      = if t = k then (ns[k]?).map (Neuron.receive_spike m) else ns[k]? := by
  unfold deliver
  cases hn : ns[t]? with
  | none =>
    simp only []
    by_cases h : t = k
    · subst h; rw [if_pos rfl, hn]; rfl
    · rw [if_neg h]
  | some n =>
    simp only []
    by_cases h : t = k
    · subst h; rw [if_pos rfl, getElem?_set_same _ _ _ _ hn, hn]; rfl
    · rw [if_neg h, List.getElem?_set_ne h]

theorem deliver_fold_getElem? (m : Bool) (ts : List Nat) :
    ∀ (ns : List Neuron) (k : Nat), (ts.foldl (deliver m) ns)[k]?
      = (ns[k]?).map ((Neuron.receive_spike m)^[ts.count k]) := by
  induction ts with
  | nil =>
    intro ns k
    cases h : ns[k]? <;> simp [h]
  | cons t ts ih =>
    intro ns k
    rw [List.foldl_cons, ih, deliver_getElem?]
    by_cases h : t = k
    · subst h
      rw [if_pos rfl, List.count_cons_self]
      cases ns[t]? with
      | none => rfl
      | some n => simp only [Option.map_some', Function.iterate_succ_apply]
    · rw [if_neg h, List.count_cons_of_ne (Ne.symm h)]

theorem propagate_one_getElem? (m : Bool) (fired : List Bool) (ns : List Neuron) (i k : Nat) :
    (propagate_one m fired ns i)[k]?
      = (ns[k]?).map ((Neuron.receive_spike m)^[
          if fired.getD i false then (targets_of ns i).count k else 0]) := by
  unfold propagate_one targets_of
  by_cases hf : fired.getD i false = true
  · rw [if_pos hf, if_pos hf]
    cases hn : ns[i]? with
    | none => simp only []; cases h : ns[k]? <;> simp
    | some n => simp only []; rw [deliver_fold_getElem?]
  · rw [if_neg hf, if_neg hf]
    cases h : ns[k]? <;> simp

theorem iterate_receive_spike_post_synaptic (m : Bool) (c : Nat) (n : Neuron) :
    ((Neuron.receive_spike m)^[c] n).post_synaptic = n.post_synaptic := by
  induction c generalizing n with
  | zero => rfl
  | succ c ih =>
    rw [Function.iterate_succ_apply, ih]
    unfold Neuron.receive_spike
    cases m <;> rfl

theorem iterate_receive_spike_true (c : Nat) (n : Neuron) :
    (Neuron.receive_spike true)^[c] n = { n with g := n.g + g_s * (c : ℚ) } := by
  induction c generalizing n with
  | zero => simp
  | succ c ih =>
    rw [Function.iterate_succ_apply, ih]
    unfold Neuron.receive_spike
    simp only [if_true, Nat.cast_succ]
    congr 1
    ring

theorem iterate_receive_spike_false (c : Nat) (n : Neuron) :
    (Neuron.receive_spike false)^[c] n = { n with I_syn := n.I_syn + I_s * (c : ℚ) } := by
  induction c generalizing n with
  | zero => simp
  | succ c ih =>
    rw [Function.iterate_succ_apply, ih]
    unfold Neuron.receive_spike
    simp only [Bool.false_eq_true, if_false, Nat.cast_succ]
    congr 1
    ring

theorem targets_of_propagate_one (m : Bool) (fired : List Bool) (ns : List Neuron)
    (i k : Nat) : targets_of (propagate_one m fired ns i) k = targets_of ns k := by
  unfold targets_of
  rw [propagate_one_getElem?]
  cases ns[k]? with
  | none => rfl
  | some n =>
    simp only [Option.map_some']
    exact iterate_receive_spike_post_synaptic m _ n

theorem incoming_propagate_one (m : Bool) (fired : List Bool) (ns : List Neuron)
    (i : Nat) (order : List Nat) (k : Nat) :
    incoming fired (propagate_one m fired ns i) order k = incoming fired ns order k := by
  unfold incoming
  simp only [targets_of_propagate_one]

theorem propagate_order_getElem? (m : Bool) (fired : List Bool) (order : List Nat) :
    ∀ (ns : List Neuron) (k : Nat), (propagate_order m fired order ns)[k]?
      = (ns[k]?).map ((Neuron.receive_spike m)^[incoming fired ns order k]) := by
  induction order with
  | nil =>
    intro ns k
    cases h : ns[k]? <;> simp [propagate_order, incoming, h]
  | cons i order ih =>
    intro ns k
    show (propagate_order m fired order (propagate_one m fired ns i))[k]? = _
    rw [ih, incoming_propagate_one, propagate_one_getElem?]
    have hinc : incoming fired ns (i :: order) k
        = (if fired.getD i false then (targets_of ns i).count k else 0)
          + incoming fired ns order k := by
      unfold incoming
      rw [List.map_cons, List.sum_cons]
    rw [hinc]
    cases ns[k]? with
    | none => rfl
    | some n =>
      simp only [Option.map_some']
      rw [Nat.add_comm, Function.iterate_add_apply]

theorem incoming_perm (fired : List Bool) (ns : List Neuron) (o1 o2 : List Nat) (k : Nat)
    (h : o1.Perm o2) : incoming fired ns o1 k = incoming fired ns o2 k := by
  unfold incoming
  exact (h.map _).sum_eq

/-- C8 (additive propagation): after the propagation phase, for every fired
vector and every topology, every neuron j has its accumulator (g in
conductance-based mode, I_syn in current-based mode) equal to its value after
the update phase plus the quantum times the number of pairs (i, k) with i
fired and post_synaptic[i][k] = j, with no saturation; V, refract_timer,
spike_history, post_synaptic and the other accumulator are unchanged, as are
the raster and the generator; and visiting the indices in any other order
gives the same population. -/
theorem C8_additive_propagation (use_conductance_based : Bool) (N : Nat)
    (fired : List Bool) (s : Sim) :
    (∀ j n, s.neurons[j]? = some n →
      ∃ n2, (propagate use_conductance_based N fired s).neurons[j]? = some n2 ∧
        n2.V = n.V ∧ n2.refract_timer = n.refract_timer ∧
        n2.spike_history = n.spike_history ∧ n2.post_synaptic = n.post_synaptic ∧
        (use_conductance_based = true →
          n2.g = n.g + g_s * (incoming fired s.neurons (List.range N) j : ℚ) ∧
          n2.I_syn = n.I_syn) ∧
        (use_conductance_based = false →
          n2.I_syn = n.I_syn + I_s * (incoming fired s.neurons (List.range N) j : ℚ) ∧
          n2.g = n.g)) ∧
    (∀ order : List Nat, order.Perm (List.range N) →
      propagate_order use_conductance_based fired order s.neurons
        = (propagate use_conductance_based N fired s).neurons) ∧
    (propagate use_conductance_based N fired s).neurons.length = s.neurons.length ∧
    (propagate use_conductance_based N fired s).spike_times = s.spike_times ∧
    (propagate use_conductance_based N fired s).rng = s.rng := by
  refine ⟨fun j n hn => ?_, fun order hperm => ?_, ?_, rfl, rfl⟩
  · refine ⟨(Neuron.receive_spike use_conductance_based)^[
        incoming fired s.neurons (List.range N) j] n, ?_, ?_⟩
    · show (propagate_order use_conductance_based fired (List.range N) s.neurons)[j]? = _
      rw [propagate_order_getElem?, hn]
      rfl
    · cases use_conductance_based with
      | true =>
        rw [iterate_receive_spike_true]
        exact ⟨rfl, rfl, rfl, rfl, fun _ => ⟨rfl, rfl⟩, fun h => (by cases h)⟩
      | false =>
        rw [iterate_receive_spike_false]
        exact ⟨rfl, rfl, rfl, rfl, fun h => (by cases h), fun _ => ⟨rfl, rfl⟩⟩
  · apply List.ext_getElem?
    intro k
    show _ = (propagate_order use_conductance_based fired (List.range N) s.neurons)[k]?
    rw [propagate_order_getElem?, propagate_order_getElem?,
      incoming_perm fired s.neurons order (List.range N) k hperm]
  · show (propagate_order use_conductance_based fired (List.range N) s.neurons).length = _
    have h : ∀ k : Nat, (propagate_order use_conductance_based fired (List.range N) s.neurons)[k]?
        = none ↔ s.neurons[k]? = none := by
      intro k
      rw [propagate_order_getElem?]
      cases s.neurons[k]? <;> simp
    apply Nat.le_antisymm
    · have h1 := (h s.neurons.length).mpr (List.getElem?_eq_none (le_refl _))
      exact List.getElem?_eq_none_iff.mp h1
    · have h2 := (h (propagate_order use_conductance_based fired
        (List.range N) s.neurons).length).mp (List.getElem?_eq_none (le_refl _))
      exact List.getElem?_eq_none_iff.mp h2

/-- C8 evaluated on two neurons, both targeting neuron 1 (neuron 0 twice),
both fired, conductance-based mode: neuron 1 receives three quanta whether
the indices are visited as 0, 1 or as 1, 0. -/
theorem C8_additive_propagation_witness :
    (∃ n2, (propagate true 2 [true, true]
        ⟨[{ post_synaptic := [1, 1] }, { post_synaptic := [1] }], [],
          ⟨fun _ => 0, fun _ => false, 0⟩⟩).neurons[1]? = some n2 ∧
      n2.g = 0 + g_s * 3 ∧ n2.I_syn = 0 ∧ n2.V = V_rest) ∧
    propagate_order true [true, true] [1, 0]
        [{ post_synaptic := [1, 1] }, { post_synaptic := [1] }]
      = (propagate true 2 [true, true]
        ⟨[{ post_synaptic := [1, 1] }, { post_synaptic := [1] }], [],
          ⟨fun _ => 0, fun _ => false, 0⟩⟩).neurons := by
  have h := C8_additive_propagation true 2 [true, true]
    ⟨[{ post_synaptic := [1, 1] }, { post_synaptic := [1] }], [],
      ⟨fun _ => 0, fun _ => false, 0⟩⟩
  refine ⟨?_, h.2.1 [1, 0] (by decide)⟩
  obtain ⟨n2, hn, hV, _, _, _, hg, _⟩ := h.1 1 { post_synaptic := [1] } rfl
  refine ⟨n2, hn, ?_, (hg rfl).2, hV⟩
  rw [(hg rfl).1]
  have hc : incoming [true, true] [{ post_synaptic := [1, 1] }, { post_synaptic := [1] }]
      (List.range 2) 1 = 3 := by decide
  simp only [hc]
  norm_num

/-! ## Update phase -/

theorem update_rng (m : Bool) (n : Neuron) (t : Int) (ci : ℚ) (rng : Rng) :
    (n.update m t ci rng).2.2
      = if n.refract_timer > 0 then rng else { rng with calls := rng.calls + 1 } := by
  by_cases hr : n.refract_timer > 0
  · rw [update_refractory m n t ci rng hr, if_pos hr]
  · rw [if_neg hr]
    by_cases hs : rng.uniform rng.calls < p_s
    · rw [update_spontaneous m n t ci rng hr hs]; rfl
    · by_cases hv : (Neuron.integrate m n).V ≥ V_th
      · rw [update_threshold m n t ci rng hr hs hv]; rfl
      · rw [update_quiet m n t ci rng hr hs hv]; rfl

theorem active_before_succ (ns : List Neuron) (j : Nat) (n : Neuron) (h : ns[j]? = some n) :
    active_before ns (j + 1)
      = active_before ns j + (if n.refract_timer > 0 then 0 else 1) := by
  unfold active_before
  rw [List.take_succ, h, List.countP_append]
  simp only [Option.toList, List.countP_singleton]
  by_cases hr : n.refract_timer > 0
  · simp [hr]
  · simp [hr]

theorem rng_at_succ (m : Bool) (t : Int) (s : Sim) (j : Nat) (n : Neuron)
    (h : s.neurons[j]? = some n) :
    (n.update m t 0 (rng_at s j)).2.2 = rng_at s (j + 1) := by
  rw [update_rng]
  unfold rng_at
  rw [active_before_succ _ _ _ h]
  by_cases hr : n.refract_timer > 0
  · rw [if_pos hr, if_pos hr, Nat.add_zero]
  · rw [if_neg hr, if_neg hr]
    simp only [Nat.add_assoc]

theorem update_one_some (m : Bool) (t : Int) (st : Sim × List Bool) (i : Nat) (n : Neuron)
    (h : st.1.neurons[i]? = some n) :
    update_one m t st i
      = ({ neurons := st.1.neurons.set i (n.update m t 0 st.1.rng).1
           spike_times :=
             if (n.update m t 0 st.1.rng).2.1 then st.1.spike_times ++ [(i, (t : ℚ) * dt)]
             else st.1.spike_times
           rng := (n.update m t 0 st.1.rng).2.2 },
         st.2.set i (n.update m t 0 st.1.rng).2.1) := by
  simp only [update_one, h]

theorem fires_at_some (m : Bool) (t : Int) (s : Sim) (k : Nat) (n : Neuron)
    (h : s.neurons[k]? = some n) :
    fires_at m t s k = (n.update m t 0 (rng_at s k)).2.1 := by
  simp only [fires_at, h]

theorem update_phase_prefix (m : Bool) (t : Int) (s : Sim) (fl : List Bool) (c : Nat)
    (hc : c ≤ s.neurons.length) :
    ((List.range c).foldl (update_one m t) (s, fl)).1.rng = rng_at s c ∧
    ((List.range c).foldl (update_one m t) (s, fl)).1.spike_times
      = s.spike_times
        ++ ((List.range c).filter (fires_at m t s)).map (fun i => (i, (t : ℚ) * dt)) ∧
    (∀ k : Nat, ((List.range c).foldl (update_one m t) (s, fl)).1.neurons[k]?
      = if k < c then (s.neurons[k]?).map (fun n => (n.update m t 0 (rng_at s k)).1)
        else s.neurons[k]?) ∧
    ((List.range c).foldl (update_one m t) (s, fl)).2.length = fl.length ∧
    (∀ k : Nat, k < fl.length → ((List.range c).foldl (update_one m t) (s, fl)).2[k]?
      = if k < c then some (fires_at m t s k) else fl[k]?) := by
  induction c with
  | zero =>
    refine ⟨?_, ?_, fun k => ?_, rfl, fun k _ => ?_⟩
    · simp [rng_at, active_before]
    · simp
    · simp
    · simp
  | succ c ih =>
    obtain ⟨ih1, ih2, ih3, ih4, ih5⟩ := ih (Nat.le_of_succ_le hc)
    rw [List.range_succ, List.foldl_append]
    simp only [List.foldl_cons, List.foldl_nil]
    generalize (List.range c).foldl (update_one m t) (s, fl) = r at ih1 ih2 ih3 ih4 ih5
    have hn : s.neurons[c]? = some (s.neurons[c]) := List.getElem?_eq_getElem hc
    generalize s.neurons[c] = n at hn
    have hrn : r.1.neurons[c]? = some n := by
      rw [ih3 c, if_neg (Nat.lt_irrefl c), hn]
    rw [update_one_some m t r c n hrn, ih1]
    have hf := fires_at_some m t s c n hn
    refine ⟨rng_at_succ m t s c n hn, ?_, fun k => ?_, ?_, fun k hk => ?_⟩
    · show (if (n.update m t 0 (rng_at s c)).2.1 = true then _ else _) = _
      rw [ih2, List.filter_append, List.map_append, ← hf]
      by_cases hb : fires_at m t s c = true
      · rw [if_pos hb]
        simp [List.filter_cons, hb]
      · rw [if_neg hb]
        simp [List.filter_cons, hb]
    · show (r.1.neurons.set c (n.update m t 0 (rng_at s c)).1)[k]? = _
      by_cases hk : k = c
      · subst hk
        rw [getElem?_set_same _ _ _ _ hrn, if_pos (Nat.lt_succ_self k), hn]
        rfl
      · rw [List.getElem?_set_ne (Ne.symm hk), ih3 k]
        by_cases hlt : k < c
        · rw [if_pos hlt, if_pos (Nat.lt_succ_of_lt hlt)]
        · rw [if_neg hlt, if_neg (by omega)]
    · show (r.2.set c _).length = _
      rw [List.length_set, ih4]
    · show (r.2.set c (n.update m t 0 (rng_at s c)).2.1)[k]? = _
      by_cases hkc : k = c
      · subst hkc
        rw [List.getElem?_set, if_pos rfl, if_pos (by rw [ih4]; exact hk),
          if_pos (Nat.lt_succ_self k), hf]
      · rw [List.getElem?_set_ne (Ne.symm hkc), ih5 k hk]
        by_cases hlt : k < c
        · rw [if_pos hlt, if_pos (Nat.lt_succ_of_lt hlt)]
        · rw [if_neg hlt, if_neg (by omega)]

theorem update_phase_spec (m : Bool) (N : Nat) (t : Int) (s : Sim)
    (hlen : s.neurons.length = N) :
    (update_phase m N t s).1.rng = rng_at s N ∧
    (update_phase m N t s).1.spike_times
      = s.spike_times
        ++ ((List.range N).filter (fires_at m t s)).map (fun i => (i, (t : ℚ) * dt)) ∧
    (∀ k : Nat, (update_phase m N t s).1.neurons[k]?
      = (s.neurons[k]?).map (fun n => (n.update m t 0 (rng_at s k)).1)) ∧
    (update_phase m N t s).2.length = N ∧
    (∀ k : Nat, k < N → (update_phase m N t s).2[k]? = some (fires_at m t s k)) := by
  obtain ⟨h1, h2, h3, h4, h5⟩ :=
    update_phase_prefix m t s (List.replicate N false) N (by rw [hlen])
  refine ⟨h1, h2, fun k => ?_, ?_, fun k hk => ?_⟩
  · show ((List.range N).foldl (update_one m t) (s, List.replicate N false)).1.neurons[k]? = _
    rw [h3 k]
    by_cases hk : k < N
    · rw [if_pos hk]
    · rw [if_neg hk, List.getElem?_eq_none (by rw [hlen]; omega)]
      rfl
  · show ((List.range N).foldl (update_one m t) (s, List.replicate N false)).2.length = _
    rw [h4, List.length_replicate]
  · show ((List.range N).foldl (update_one m t) (s, List.replicate N false)).2[k]? = _
    rw [h5 k (by rw [List.length_replicate]; exact hk), if_pos hk]

theorem simulate_step_getElem? (m : Bool) (N : Nat) (t : Int) (s : Sim)
    (hlen : s.neurons.length = N) (k : Nat) :
    (simulate_step m N t s).neurons[k]?
      = (s.neurons[k]?).map (fun n =>
          (Neuron.receive_spike m)^[incoming (update_phase m N t s).2
            (update_phase m N t s).1.neurons (List.range N) k]
            (n.update m t 0 (rng_at s k)).1) := by
  show (propagate_order m (update_phase m N t s).2 (List.range N)
    (update_phase m N t s).1.neurons)[k]? = _
  rw [propagate_order_getElem?, (update_phase_spec m N t s hlen).2.2.1 k]
  cases s.neurons[k]? <;> rfl

/-- C1 (propagation-delay invariant): in one iteration of `simulate` on a
population of N neurons, for every state, step index and draws, neuron j and
its fired flag at the end of the update phase are `Neuron::update` applied to
the state j had at the start of the step (with the generator advanced by one
draw for each lower-indexed neuron that was active at the start of the step),
whatever the other neurons did; the whole iteration is the propagation phase
applied to the outcome of the complete update phase, so that at the end of the
step neuron j is that update result with the `receive_spike` increments of the
step applied on top of it. -/
theorem C1_propagation_delay (use_conductance_based : Bool) (N : Nat) (t : Int)
    (s : Sim) (hlen : s.neurons.length = N) (j : Nat) (hj : j < N) :
    ∃ n, s.neurons[j]? = some n ∧
      (update_phase use_conductance_based N t s).1.neurons[j]?
        = some (n.update use_conductance_based t 0 (rng_at s j)).1 ∧
      (update_phase use_conductance_based N t s).2[j]?
        = some (n.update use_conductance_based t 0 (rng_at s j)).2.1 ∧
      simulate_step use_conductance_based N t s
        = propagate use_conductance_based N (update_phase use_conductance_based N t s).2
            (update_phase use_conductance_based N t s).1 ∧
      (simulate_step use_conductance_based N t s).neurons[j]?
        = some ((Neuron.receive_spike use_conductance_based)^[
            incoming (update_phase use_conductance_based N t s).2
              (update_phase use_conductance_based N t s).1.neurons (List.range N) j]
            (n.update use_conductance_based t 0 (rng_at s j)).1) := by
  have hn : s.neurons[j]? = some (s.neurons[j]) :=
    List.getElem?_eq_getElem (by rw [hlen]; exact hj)
  generalize s.neurons[j] = n at hn
  obtain ⟨_, _, h3, _, h5⟩ := update_phase_spec use_conductance_based N t s hlen
  refine ⟨n, hn, ?_, ?_, rfl, ?_⟩
  · rw [h3 j, hn]; rfl
  · rw [h5 j hj, fires_at_some _ _ _ _ _ hn]
  · rw [simulate_step_getElem? _ _ _ _ hlen, hn]; rfl

/-- C1 evaluated on two neurons, 0 targeting 1, where neuron 0 fires
spontaneously at step 0 (draw 0) and neuron 1 draws 1/2: neuron 1 does not
fire and leaves the update phase with g = 0. -/
theorem C1_propagation_delay_witness :
    (⟨[{ post_synaptic := [1] }, {}], [],
        ⟨fun k => if k = 0 then 0 else 1 / 2, fun _ => false, 0⟩⟩ : Sim).neurons.length = 2 ∧
    ∃ n, (update_phase true 2 0 ⟨[{ post_synaptic := [1] }, {}], [],
        ⟨fun k => if k = 0 then 0 else 1 / 2, fun _ => false, 0⟩⟩).1.neurons[1]? = some n ∧
      n.g = 0 ∧
      (update_phase true 2 0 ⟨[{ post_synaptic := [1] }, {}], [],
        ⟨fun k => if k = 0 then 0 else 1 / 2, fun _ => false, 0⟩⟩).2[1]? = some false := by
  obtain ⟨n, hn, h1, h2, _⟩ := C1_propagation_delay true 2 0
    ⟨[{ post_synaptic := [1] }, {}], [],
      ⟨fun k => if k = 0 then 0 else 1 / 2, fun _ => false, 0⟩⟩ rfl 1 (by decide)
  have hn2 : ({} : Neuron) = n := Option.some.inj hn
  subst hn2
  have hq := update_quiet true ({} : Neuron) 0 0
    (rng_at ⟨[{ post_synaptic := [1] }, {}], [],
      ⟨fun k => if k = 0 then 0 else 1 / 2, fun _ => false, 0⟩⟩ 1)
    (by decide) (by norm_num [rng_at, active_before, p_s])
    (by norm_num [Neuron.integrate, V_th, V_rest, dt, tau_m, R_m, E_rev])
  rw [hq] at h1 h2
  exact ⟨rfl, _, h1, rfl, h2⟩

/-! ## Refractory exclusion -/

theorem receive_spike_refract_timer (m : Bool) (n : Neuron) :
    (n.receive_spike m).refract_timer = n.refract_timer := by
  unfold Neuron.receive_spike; cases m <;> rfl

theorem receive_spike_spike_history (m : Bool) (n : Neuron) :
    (n.receive_spike m).spike_history = n.spike_history := by
  unfold Neuron.receive_spike; cases m <;> rfl

theorem update_fired_timer (m : Bool) (n : Neuron) (t : Int) (ci : ℚ) (rng : Rng)
    (h : (n.update m t ci rng).2.1 = true) :
    (n.update m t ci rng).1.refract_timer = ref_steps := by
  by_cases hr : n.refract_timer > 0
  · rw [update_refractory m n t ci rng hr] at h; cases h
  · by_cases hs : rng.uniform rng.calls < p_s
    · rw [update_spontaneous m n t ci rng hr hs]; rfl
    · by_cases hv : (Neuron.integrate m n).V ≥ V_th
      · rw [update_threshold m n t ci rng hr hs hv]; rfl
      · rw [update_quiet m n t ci rng hr hs hv] at h; cases h

theorem spiked_flags_refractory (m : Bool) (cs : List Call) :
    ∀ (k : Nat) (st : Neuron × Rng), (k : Int) ≤ st.1.refract_timer →
      ∀ b ∈ (spiked_flags m st cs).take k, b = false := by
  induction cs with
  | nil => intro k st _ b hb; simp [spiked_flags] at hb
  | cons c cs ih =>
    intro k st hk b hb
    cases c with
    | receive_spike =>
      have e : spiked_flags m st (Call.receive_spike :: cs)
          = spiked_flags m (st.1.receive_spike m, st.2) cs := rfl
      rw [e] at hb
      exact ih k _ (by rw [receive_spike_refract_timer]; exact hk) b hb
    | update t =>
      have e : spiked_flags m st (Call.update t :: cs)
          = (st.1.update m t 0 st.2).2.1
            :: spiked_flags m ((st.1.update m t 0 st.2).1, (st.1.update m t 0 st.2).2.2) cs :=
        rfl
      rw [e] at hb
      cases k with
      | zero => simp at hb
      | succ k =>
        have hr : st.1.refract_timer > 0 := by
          have : (0 : Int) ≤ (k : Int) := Int.ofNat_nonneg k
          push_cast at hk
          omega
        rw [update_refractory m st.1 t 0 st.2 hr, List.take_succ_cons, List.mem_cons] at hb
        rcases hb with hb | hb
        · exact hb
        · refine ih k _ ?_ b hb
          show (k : Int) ≤ st.1.refract_timer - 1
          push_cast at hk
          omega

theorem spaced_append_step (h : List ℚ) (t : Int) (hs : Spaced h)
    (hl : ∀ e ∈ h.getLast?, ∃ tl : Int, e = (tl : ℚ) * dt ∧ tl + ref_steps + 1 ≤ t) :
    Spaced (h ++ [(t : ℚ) * dt]) := by
  unfold Spaced
  rw [List.chain'_append]
  refine ⟨hs, List.chain'_singleton _, fun x hx y hy => ?_⟩
  obtain ⟨tl, hx1, hx2⟩ := hl x hx
  simp only [List.head?_cons, Option.mem_def, Option.some.injEq] at hy
  exact ⟨tl, t, hx1, hy.symm, by omega⟩

theorem histInv_fire (t : Int) (n a : Neuron) (h : HistInv t n)
    (hr : ¬ n.refract_timer > 0) (ha : a.spike_history = n.spike_history) :
    HistInv (t + 1) (a.fire t) := by
  obtain ⟨h0, _, hs, hl⟩ := h
  have hz : n.refract_timer = 0 := by omega
  rw [hz] at hl
  refine ⟨ref_steps_nonneg, le_refl _, ?_, ?_⟩
  · show Spaced (a.spike_history ++ [(t : ℚ) * dt])
    rw [ha]
    refine spaced_append_step _ t hs (fun e he => ?_)
    obtain ⟨tl, h1, h2⟩ := hl e he
    exact ⟨tl, h1, by omega⟩
  · intro e he
    have he2 : (a.spike_history ++ [(t : ℚ) * dt]).getLast? = some e := he
    rw [List.getLast?_concat] at he2
    refine ⟨t, (Option.some.inj he2).symm, ?_⟩
    show t + (ref_steps - ref_steps) + 1 ≤ t + 1
    omega

theorem histInv_update (m : Bool) (n : Neuron) (t : Int) (ci : ℚ) (rng : Rng)
    (h : HistInv t n) : HistInv (t + 1) (n.update m t ci rng).1 := by
  by_cases hr : n.refract_timer > 0
  · rw [update_refractory m n t ci rng hr]
    obtain ⟨h0, h1, hs, hl⟩ := h
    refine ⟨?_, ?_, hs, fun e he => ?_⟩
    · show 0 ≤ n.refract_timer - 1
      omega
    · show n.refract_timer - 1 ≤ ref_steps
      omega
    · obtain ⟨tl, h2, h3⟩ := hl e he
      refine ⟨tl, h2, ?_⟩
      show tl + (ref_steps - (n.refract_timer - 1)) + 1 ≤ t + 1
      omega
  · by_cases hs : rng.uniform rng.calls < p_s
    · rw [update_spontaneous m n t ci rng hr hs]
      exact histInv_fire t n n h hr rfl
    · by_cases hv : (Neuron.integrate m n).V ≥ V_th
      · rw [update_threshold m n t ci rng hr hs hv]
        exact histInv_fire t n _ h hr (integrate_spike_history m n)
      · rw [update_quiet m n t ci rng hr hs hv]
        obtain ⟨h0, h1, hsp, hl⟩ := h
        refine ⟨?_, ?_, ?_, fun e he => ?_⟩
        · rw [integrate_refract_timer]; exact h0
        · rw [integrate_refract_timer]; exact h1
        · rw [integrate_spike_history]; exact hsp
        · rw [integrate_spike_history] at he
          obtain ⟨tl, h2, h3⟩ := hl e he
          refine ⟨tl, h2, ?_⟩
          rw [integrate_refract_timer]
          omega

theorem histInv_receive_spike (m : Bool) (t : Int) (n : Neuron) (h : HistInv t n) :
    HistInv t (n.receive_spike m) := by
  unfold HistInv at h ⊢
  rw [receive_spike_refract_timer, receive_spike_spike_history]
  exact h

theorem histInv_iterate_receive_spike (m : Bool) (t : Int) (c : Nat) :
    ∀ n : Neuron, HistInv t n → HistInv t ((Neuron.receive_spike m)^[c] n) := by
  induction c with
  | zero => intro n h; exact h
  | succ c ih =>
    intro n h
    rw [Function.iterate_succ_apply]
    exact ih _ (histInv_receive_spike m t n h)

theorem length_of_getElem?_map {α : Type} (l1 l2 : List α) (f : Nat → α → α)
    (h : ∀ k : Nat, l2[k]? = (l1[k]?).map (f k)) : l2.length = l1.length := by
  have hnone : ∀ k : Nat, l2[k]? = none ↔ l1[k]? = none := by
    intro k
    rw [h k]
    cases l1[k]? <;> simp
  apply Nat.le_antisymm
  · exact List.getElem?_eq_none_iff.mp
      ((hnone l1.length).mpr (List.getElem?_eq_none (le_refl _)))
  · exact List.getElem?_eq_none_iff.mp
      ((hnone l2.length).mp (List.getElem?_eq_none (le_refl _)))

theorem simulate_step_length (m : Bool) (N : Nat) (t : Int) (s : Sim)
    (hlen : s.neurons.length = N) : (simulate_step m N t s).neurons.length = N := by
  rw [length_of_getElem?_map s.neurons (simulate_step m N t s).neurons _
    (simulate_step_getElem? m N t s hlen), hlen]

theorem simulate_loop_histInv (m : Bool) (N : Nat) (s : Sim) (hlen : s.neurons.length = N)
    (h0 : ∀ a ∈ s.neurons, HistInv 0 a) (k : Nat) :
    (simulate_loop m N k s).neurons.length = N ∧
    ∀ (j : Nat) (n : Neuron), (simulate_loop m N k s).neurons[j]? = some n →
      HistInv (k : Int) n := by
  induction k with
  | zero => exact ⟨hlen, fun j n hn => h0 n (List.getElem?_mem hn)⟩
  | succ k ih =>
    obtain ⟨ihl, ihn⟩ := ih
    have e : simulate_loop m N (k + 1) s
        = simulate_step m N (k : Int) (simulate_loop m N k s) := rfl
    rw [e]
    refine ⟨simulate_step_length m N _ _ ihl, fun j n hn => ?_⟩
    rw [simulate_step_getElem? m N _ _ ihl] at hn
    cases ha : (simulate_loop m N k s).neurons[j]? with
    | none => rw [ha] at hn; cases hn
    | some a =>
      rw [ha] at hn
      have hn2 := Option.some.inj hn
      rw [← hn2]
      have hu := histInv_update m a (k : Int) 0 (rng_at (simulate_loop m N k s) j)
        (ihn j a ha)
      have hc : (((k + 1 : Nat) : Int)) = (k : Int) + 1 := by push_cast; rfl
      rw [hc]
      exact histInv_iterate_receive_spike m ((k : Int) + 1) _ _ hu

/-- C4 (refractory exclusion): if `update` reports fired, then in any
continuation by `update` calls (any step indices and draws) and
`receive_spike` calls the next ref_steps `update` calls all report not fired;
and after any number of iterations of `simulate` from neurons with timer 0
and empty record, any two consecutive entries of a neuron's spike_history are
t1*dt and t2*dt for step indices with t1 + ref_steps ≤ t2. -/
theorem C4_refractory_exclusion (use_conductance_based : Bool) :
    (∀ (n : Neuron) (t : Int) (current_input : ℚ) (rng : Rng) (cs : List Call),
      (n.update use_conductance_based t current_input rng).2.1 = true →
      ∀ b ∈ (spiked_flags use_conductance_based
              ((n.update use_conductance_based t current_input rng).1,
               (n.update use_conductance_based t current_input rng).2.2) cs).take
            ref_steps.toNat,
        b = false) ∧
    (∀ (N : Nat) (s : Sim) (k : Nat), s.neurons.length = N →
      (∀ a ∈ s.neurons, a.refract_timer = 0 ∧ a.spike_history = []) →
      ∀ (j : Nat) (n : Neuron),
        (simulate_loop use_conductance_based N k s).neurons[j]? = some n →
        List.Chain' (fun a b => ∃ ta tb : Int, a = (ta : ℚ) * dt ∧ b = (tb : ℚ) * dt
          ∧ ta + ref_steps ≤ tb) n.spike_history) := by
  refine ⟨fun n t ci rng cs hf => ?_, fun N s k hlen hinit j n hn => ?_⟩
  · apply spiked_flags_refractory
    show ((ref_steps.toNat : Nat) : Int) ≤ (n.update use_conductance_based t ci rng).1.refract_timer
    rw [update_fired_timer _ n t ci rng hf, Int.toNat_of_nonneg ref_steps_nonneg]
  · have h0 : ∀ a ∈ s.neurons, HistInv 0 a := by
      intro a ha
      obtain ⟨h1, h2⟩ := hinit a ha
      refine ⟨by rw [h1], by rw [h1]; exact ref_steps_nonneg, ?_, ?_⟩
      · unfold Spaced; rw [h2]; exact List.chain'_nil
      · rw [h2]; intro e he; cases he
    exact ((simulate_loop_histInv use_conductance_based N s hlen h0 k).2 j n hn).2.2.1

/-- C4 evaluated in conductance-based mode: the initial neuron fires
spontaneously at step 0 (draw 0); two further updates with a `receive_spike`
in between report no spike; and every record produced by 30 iterations on two
initial neurons is spaced. -/
theorem C4_refractory_exclusion_witness :
    (({} : Neuron).update true 0 0 ⟨fun _ => 0, fun _ => false, 0⟩).2.1 = true ∧
    (∀ b ∈ (spiked_flags true
              ((({} : Neuron).update true 0 0 ⟨fun _ => 0, fun _ => false, 0⟩).1,
               (({} : Neuron).update true 0 0 ⟨fun _ => 0, fun _ => false, 0⟩).2.2)
              [Call.update 1, Call.receive_spike, Call.update 2]).take ref_steps.toNat,
      b = false) ∧
    (∀ (j : Nat) (n : Neuron),
      (simulate_loop true 2 30 (init 2 ⟨fun _ => 0, fun _ => false, 0⟩)).neurons[j]? = some n →
      List.Chain' (fun a b => ∃ ta tb : Int, a = (ta : ℚ) * dt ∧ b = (tb : ℚ) * dt
        ∧ ta + ref_steps ≤ tb) n.spike_history) :=
  have hf : (({} : Neuron).update true 0 0 ⟨fun _ => 0, fun _ => false, 0⟩).2.1 = true := by
    rw [update_spontaneous true {} 0 0 _ (by decide) (by norm_num [p_s])]
  ⟨hf,
   (C4_refractory_exclusion true).1 {} 0 0 ⟨fun _ => 0, fun _ => false, 0⟩ _ hf,
   (C4_refractory_exclusion true).2 2 (init 2 ⟨fun _ => 0, fun _ => false, 0⟩) 30 rfl
     (fun a ha => by rw [List.eq_of_mem_replicate ha]; exact ⟨rfl, rfl⟩)⟩

/-! ## Further single-neuron properties -/

theorem integrate_true_I_syn_nonneg (n : Neuron) : 0 ≤ (Neuron.integrate true n).I_syn := by
  show 0 ≤ max 0 (n.I_syn + -(n.g / tau_s) * dt)
  exact le_max_left _ _

theorem update_true_I_syn_nonneg (n : Neuron) (t : Int) (ci : ℚ) (rng : Rng)
    (h : 0 ≤ n.I_syn) : 0 ≤ (n.update true t ci rng).1.I_syn := by
  by_cases hr : n.refract_timer > 0
  · rw [update_refractory true n t ci rng hr]; exact h
  · by_cases hs : rng.uniform rng.calls < p_s
    · rw [update_spontaneous true n t ci rng hr hs]; exact h
    · by_cases hv : (Neuron.integrate true n).V ≥ V_th
      · rw [update_threshold true n t ci rng hr hs hv]
        exact integrate_true_I_syn_nonneg n
      · rw [update_quiet true n t ci rng hr hs hv]
        exact integrate_true_I_syn_nonneg n

theorem run_calls_true_I_syn_nonneg (cs : List Call) :
    ∀ st : Neuron × Rng, 0 ≤ st.1.I_syn → 0 ≤ (run_calls true st cs).1.I_syn := by
  induction cs with
  | nil => intro st h; exact h
  | cons c cs ih =>
    intro st h
    show 0 ≤ (run_calls true (apply_call true st c).1 cs).1.I_syn
    apply ih
    cases c with
    | update t => exact update_true_I_syn_nonneg st.1 t 0 st.2 h
    | receive_spike => exact h

/-- C11 (floor invariant): in conductance-based mode, from any neuron state
with I_syn >= 0, after any sequence of `update` calls (any step indices and
draws) and `receive_spike` calls the auxiliary current I_syn is not
negative. -/
theorem C11_floor_invariant (n : Neuron) (rng : Rng) (cs : List Call)
    (h : 0 ≤ n.I_syn) : 0 ≤ (run_calls true (n, rng) cs).1.I_syn :=
  run_calls_true_I_syn_nonneg cs (n, rng) h

/-- C11 evaluated on a neuron with g = 1 and I_syn = 1/1000 (so that the
decrement exceeds the current) through an update, a spike receipt and another
update. -/
theorem C11_floor_invariant_witness :
    0 ≤ ({ g := 1, I_syn := 1 / 1000 } : Neuron).I_syn ∧
    0 ≤ (run_calls true (({ g := 1, I_syn := 1 / 1000 } : Neuron),
          ⟨fun _ => 1 / 2, fun _ => false, 0⟩)
          [Call.update 0, Call.receive_spike, Call.update 1]).1.I_syn :=
  have h : 0 ≤ ({ g := 1, I_syn := 1 / 1000 } : Neuron).I_syn := by
    show (0 : ℚ) ≤ 1 / 1000
    norm_num
  ⟨h, C11_floor_invariant _ _ _ h⟩

theorem integrate_V (m : Bool) (n : Neuron) : (Neuron.integrate m n).V = candidate m n := by
  cases m with
  | true => rfl
  | false =>
    show n.V + dt / tau_m * (-(n.V - V_rest) + R_m * (n.I_syn + -(n.I_syn / tau_s) * dt))
      = n.V + dt / tau_m * (-(n.V - V_rest) + R_m * (n.I_syn - (n.I_syn / tau_s) * dt))
    ring

/-- C17 (firing decision and check order): for a neuron with
refract_timer >= 0, `update` reports fired exactly when the timer is 0 and
either the draw is below p_s or the mode-dependent candidate potential is at
least V_th (equality fires).  A refractory neuron does not fire, leaves the
generator untouched, has its timer decremented by one and V set to V_rest.
An active neuron consumes exactly one draw, and when that draw is below p_s
the result is `fire` applied to the unintegrated state, with no threshold
check. -/
theorem C17_firing_decision (use_conductance_based : Bool) (n : Neuron) (t : Int)
    (current_input : ℚ) (rng : Rng) (h0 : 0 ≤ n.refract_timer) :
    ((n.update use_conductance_based t current_input rng).2.1 = true ↔
      n.refract_timer = 0 ∧
        (rng.uniform rng.calls < p_s ∨ candidate use_conductance_based n ≥ V_th)) ∧
    (n.refract_timer > 0 →
      (n.update use_conductance_based t current_input rng).2.1 = false ∧
      (n.update use_conductance_based t current_input rng).2.2 = rng ∧
      (n.update use_conductance_based t current_input rng).1.refract_timer
        = n.refract_timer - 1 ∧
      (n.update use_conductance_based t current_input rng).1.V = V_rest) ∧
    (n.refract_timer = 0 →
      (n.update use_conductance_based t current_input rng).2.2
        = { rng with calls := rng.calls + 1 }) ∧
    (n.refract_timer = 0 → rng.uniform rng.calls < p_s →
      n.update use_conductance_based t current_input rng
        = (n.fire t, true, { rng with calls := rng.calls + 1 })) := by
  by_cases hr : n.refract_timer > 0
  · have hne : n.refract_timer ≠ 0 := by omega
    rw [update_refractory _ n t _ rng hr]
    exact ⟨⟨fun h => (by cases h), fun h => absurd h.1 hne⟩,
      fun _ => ⟨rfl, rfl, rfl, rfl⟩, fun h => absurd h hne, fun h => absurd h hne⟩
  · have hz : n.refract_timer = 0 := by omega
    by_cases hs : rng.uniform rng.calls < p_s
    · rw [update_spontaneous _ n t _ rng hr hs]
      exact ⟨⟨fun _ => ⟨hz, Or.inl hs⟩, fun _ => rfl⟩, fun h => absurd h hr,
        fun _ => rfl, fun _ _ => rfl⟩
    · by_cases hv : (Neuron.integrate use_conductance_based n).V ≥ V_th
      · rw [update_threshold _ n t _ rng hr hs hv]
        rw [integrate_V] at hv
        exact ⟨⟨fun _ => ⟨hz, Or.inr hv⟩, fun _ => rfl⟩, fun h => absurd h hr,
          fun _ => rfl, fun _ h => absurd h hs⟩
      · rw [update_quiet _ n t _ rng hr hs hv]
        rw [integrate_V] at hv
        refine ⟨⟨fun h => (by cases h), fun h => ?_⟩, fun h => absurd h hr,
          fun _ => rfl, fun _ h => absurd h hs⟩
        rcases h.2 with h1 | h1
        · exact absurd h1 hs
        · exact absurd h1 hv

/-- C17 evaluated on the initial neuron with draw 0: it fires. -/
theorem C17_firing_decision_witness :
    0 ≤ ({} : Neuron).refract_timer ∧
    (({} : Neuron).update false 4 0 ⟨fun _ => 0, fun _ => false, 0⟩).2.1 = true :=
  ⟨le_refl _,
   (C17_firing_decision false {} 4 0 ⟨fun _ => 0, fun _ => false, 0⟩ (le_refl _)).1.mpr
     ⟨rfl, Or.inl (by norm_num [p_s])⟩⟩

/-- C18 (integration skipped outside the integrating branch): when `update`
takes the refractory branch (timer positive) or the spontaneous-fire branch
(timer not positive, draw below p_s), g and I_syn after the call are their
values before the call, in either mode. -/
theorem C18_integration_skipped (use_conductance_based : Bool) (n : Neuron) (t : Int)
    (current_input : ℚ) (rng : Rng)
    (h : n.refract_timer > 0 ∨ (¬ n.refract_timer > 0 ∧ rng.uniform rng.calls < p_s)) :
    (n.update use_conductance_based t current_input rng).1.g = n.g ∧
    (n.update use_conductance_based t current_input rng).1.I_syn = n.I_syn := by
  rcases h with hr | ⟨hr, hs⟩
  · rw [update_refractory _ n t _ rng hr]
    exact ⟨rfl, rfl⟩
  · rw [update_spontaneous _ n t _ rng hr hs]
    exact ⟨rfl, rfl⟩

/-- C18 evaluated on a refractory neuron with g = 1 and I_syn = 2 in
conductance-based mode. -/
theorem C18_integration_skipped_witness :
    ({ g := 1, I_syn := 2, refract_timer := 3 } : Neuron).refract_timer > 0 ∧
    (({ g := 1, I_syn := 2, refract_timer := 3 } : Neuron).update true 9 0
        ⟨fun _ => 1 / 2, fun _ => false, 0⟩).1.g = 1 ∧
    (({ g := 1, I_syn := 2, refract_timer := 3 } : Neuron).update true 9 0
        ⟨fun _ => 1 / 2, fun _ => false, 0⟩).1.I_syn = 2 :=
  ⟨by decide,
   C18_integration_skipped true { g := 1, I_syn := 2, refract_timer := 3 } 9 0
     ⟨fun _ => 1 / 2, fun _ => false, 0⟩ (Or.inl (by decide))⟩

theorem integrate_subThreshold_lower (m : Bool) (n : Neuron) (h : SubThreshold n) :
    0 ≤ (Neuron.integrate m n).I_syn ∧ V_rest ≤ (Neuron.integrate m n).V := by
  obtain ⟨hg, hI, hV1, hV2⟩ := h
  unfold V_rest at hV1
  unfold V_th at hV2
  cases m with
  | true =>
    refine ⟨integrate_true_I_syn_nonneg n, ?_⟩
    show V_rest ≤ n.V + dt / tau_m * (-(n.V - V_rest) + R_m * n.g * (E_rev - n.V))
    have hp : 0 ≤ n.g * (-n.V) := mul_nonneg hg (by linarith)
    norm_num [V_rest, dt, tau_m, R_m, E_rev]
    nlinarith
  | false =>
    refine ⟨?_, ?_⟩
    · show 0 ≤ n.I_syn + -(n.I_syn / tau_s) * dt
      norm_num [tau_s, dt]
      linarith
    · show V_rest ≤ n.V + dt / tau_m
        * (-(n.V - V_rest) + R_m * (n.I_syn + -(n.I_syn / tau_s) * dt))
      norm_num [V_rest, dt, tau_m, R_m, tau_s]
      linarith

theorem V_rest_lt_V_th : V_rest < V_th := by
  norm_num [V_rest, V_th]

theorem update_subThreshold (m : Bool) (n : Neuron) (t : Int) (ci : ℚ) (rng : Rng)
    (h : SubThreshold n) : SubThreshold (n.update m t ci rng).1 := by
  have hi := integrate_subThreshold_lower m n h
  obtain ⟨hg, hI, hV1, hV2⟩ := h
  by_cases hr : n.refract_timer > 0
  · rw [update_refractory m n t ci rng hr]
    exact ⟨hg, hI, le_refl _, V_rest_lt_V_th⟩
  · by_cases hs : rng.uniform rng.calls < p_s
    · rw [update_spontaneous m n t ci rng hr hs]
      exact ⟨hg, hI, le_refl _, V_rest_lt_V_th⟩
    · by_cases hv : (Neuron.integrate m n).V ≥ V_th
      · rw [update_threshold m n t ci rng hr hs hv]
        refine ⟨?_, hi.1, le_refl _, V_rest_lt_V_th⟩
        show 0 ≤ (Neuron.integrate m n).g
        rw [integrate_g]; exact hg
      · rw [update_quiet m n t ci rng hr hs hv]
        refine ⟨?_, hi.1, hi.2, not_le.mp hv⟩
        rw [integrate_g]; exact hg

theorem receive_spike_subThreshold (m : Bool) (n : Neuron) (h : SubThreshold n) :
    SubThreshold (n.receive_spike m) := by
  obtain ⟨hg, hI, hV1, hV2⟩ := h
  cases m with
  | true =>
    refine ⟨?_, hI, hV1, hV2⟩
    show 0 ≤ n.g + g_s
    have : (0 : ℚ) ≤ g_s := by norm_num [g_s]
    linarith
  | false =>
    refine ⟨hg, ?_, hV1, hV2⟩
    show 0 ≤ n.I_syn + I_s
    have : (0 : ℚ) ≤ I_s := by norm_num [I_s]
    linarith

theorem run_calls_subThreshold (m : Bool) (cs : List Call) :
    ∀ st : Neuron × Rng, SubThreshold st.1 → SubThreshold (run_calls m st cs).1 := by
  induction cs with
  | nil => intro st h; exact h
  | cons c cs ih =>
    intro st h
    show SubThreshold (run_calls m (apply_call m st c).1 cs).1
    apply ih
    cases c with
    | update t => exact update_subThreshold m st.1 t 0 st.2 h
    | receive_spike => exact receive_spike_subThreshold m st.1 h

/-- C19 (potential stays in the sub-threshold band): with the constants of
the program and exact arithmetic, every state reached from the initial
neuron by any sequence of `update` calls (any draws) and `receive_spike`
calls, in either mode, has g >= 0, I_syn >= 0 and V_rest <= V < V_th; in
particular this holds after every `update`. -/
theorem C19_sub_threshold_band (use_conductance_based : Bool) (targets : List Nat)
    (rng : Rng) (cs : List Call) :
    0 ≤ (run_calls use_conductance_based ({ post_synaptic := targets }, rng) cs).1.g ∧
    0 ≤ (run_calls use_conductance_based ({ post_synaptic := targets }, rng) cs).1.I_syn ∧
    V_rest ≤ (run_calls use_conductance_based ({ post_synaptic := targets }, rng) cs).1.V ∧
    (run_calls use_conductance_based ({ post_synaptic := targets }, rng) cs).1.V < V_th :=
  run_calls_subThreshold use_conductance_based cs _
    ⟨le_refl _, le_refl _, le_refl _, V_rest_lt_V_th⟩

/-! ## Fixed topology -/

theorem update_post_synaptic (m : Bool) (n : Neuron) (t : Int) (ci : ℚ) (rng : Rng) :
    (n.update m t ci rng).1.post_synaptic = n.post_synaptic := by
  by_cases hr : n.refract_timer > 0
  · rw [update_refractory m n t ci rng hr]
  · by_cases hs : rng.uniform rng.calls < p_s
    · rw [update_spontaneous m n t ci rng hr hs]; rfl
    · by_cases hv : (Neuron.integrate m n).V ≥ V_th
      · rw [update_threshold m n t ci rng hr hs hv]
        exact integrate_post_synaptic m n
      · rw [update_quiet m n t ci rng hr hs hv]
        exact integrate_post_synaptic m n

theorem receive_spike_post_synaptic (m : Bool) (n : Neuron) :
    (n.receive_spike m).post_synaptic = n.post_synaptic := by
  unfold Neuron.receive_spike; cases m <;> rfl

theorem simulate_step_post_synaptic (m : Bool) (N : Nat) (t : Int) (s : Sim)
    (hlen : s.neurons.length = N) (j : Nat) :
    ((simulate_step m N t s).neurons[j]?).map Neuron.post_synaptic
      = (s.neurons[j]?).map Neuron.post_synaptic := by
  rw [simulate_step_getElem? m N t s hlen j]
  cases s.neurons[j]? with
  | none => rfl
  | some n =>
    simp only [Option.map_some']
    rw [iterate_receive_spike_post_synaptic, update_post_synaptic]

theorem simulate_loop_length (m : Bool) (N : Nat) (s : Sim) (hlen : s.neurons.length = N)
    (k : Nat) : (simulate_loop m N k s).neurons.length = N := by
  induction k with
  | zero => exact hlen
  | succ k ih => exact simulate_step_length m N _ _ ih

theorem simulate_loop_post_synaptic (m : Bool) (N : Nat) (s : Sim)
    (hlen : s.neurons.length = N) (k j : Nat) :
    ((simulate_loop m N k s).neurons[j]?).map Neuron.post_synaptic
      = (s.neurons[j]?).map Neuron.post_synaptic := by
  induction k with
  | zero => rfl
  | succ k ih =>
    show ((simulate_step m N (k : Int) (simulate_loop m N k s)).neurons[j]?).map _ = _
    rw [simulate_step_post_synaptic m N _ _ (simulate_loop_length m N s hlen k), ih]

/-- C16 (fixed topology): `update` and `receive_spike` leave the
post_synaptic list of the neuron unchanged, and so do one iteration of
`simulate` (any step index) and any number of iterations, for every neuron,
every state of a population of N neurons and every draws. -/
theorem C16_fixed_topology (use_conductance_based : Bool) :
    (∀ (n : Neuron) (t : Int) (current_input : ℚ) (rng : Rng),
      (n.update use_conductance_based t current_input rng).1.post_synaptic
        = n.post_synaptic) ∧
    (∀ n : Neuron, (n.receive_spike use_conductance_based).post_synaptic = n.post_synaptic) ∧
    (∀ (N : Nat) (t : Int) (s : Sim) (j : Nat), s.neurons.length = N →
      ((simulate_step use_conductance_based N t s).neurons[j]?).map Neuron.post_synaptic
        = (s.neurons[j]?).map Neuron.post_synaptic) ∧
    (∀ (N : Nat) (s : Sim) (k j : Nat), s.neurons.length = N →
      ((simulate_loop use_conductance_based N k s).neurons[j]?).map Neuron.post_synaptic
        = (s.neurons[j]?).map Neuron.post_synaptic) ∧
    (∀ (N : Nat) (s : Sim) (j : Nat), s.neurons.length = N →
      ((simulate use_conductance_based N s).neurons[j]?).map Neuron.post_synaptic
        = (s.neurons[j]?).map Neuron.post_synaptic) :=
  ⟨update_post_synaptic use_conductance_based,
   receive_spike_post_synaptic use_conductance_based,
   fun N t s j hlen => simulate_step_post_synaptic use_conductance_based N t s hlen j,
   fun N s k j hlen => simulate_loop_post_synaptic use_conductance_based N s hlen k j,
   fun N s j hlen => simulate_loop_post_synaptic use_conductance_based N s hlen _ j⟩

/-- C16 evaluated on the fully connected three-neuron network after the whole
run of `simulate`: neuron 1 still targets 0 and 2. -/
theorem C16_fixed_topology_witness :
    ((simulate false 3
        (connect_neurons 3 (init 3 ⟨fun _ => 1 / 2, fun _ => true, 0⟩))).neurons[1]?).map
      Neuron.post_synaptic
    = ((connect_neurons 3 (init 3 ⟨fun _ => 1 / 2, fun _ => true, 0⟩)).neurons[1]?).map
      Neuron.post_synaptic :=
  (C16_fixed_topology false).2.2.2.2 3 _ 1
    (by rw [(connect_neurons_spec 3 _).2.2.1]; rfl)

/-! ## The spike log -/

theorem update_phase_flags (m : Bool) (N : Nat) (t : Int) (s : Sim)
    (hlen : s.neurons.length = N) :
    (update_phase m N t s).2 = (List.range N).map (fires_at m t s) := by
  obtain ⟨_, _, _, h4, h5⟩ := update_phase_spec m N t s hlen
  apply List.ext_getElem?
  intro k
  by_cases hk : k < N
  · rw [h5 k hk, List.getElem?_map, List.getElem?_range hk]
    rfl
  · rw [List.getElem?_eq_none (by rw [h4]; omega),
      List.getElem?_eq_none (by rw [List.length_map, List.length_range]; omega)]

theorem step_log_length (m : Bool) (N : Nat) (t : Int) (s : Sim)
    (hlen : s.neurons.length = N) :
    (step_log m N t s).length = (update_phase m N t s).2.count true := by
  rw [update_phase_flags m N t s hlen]
  unfold step_log
  rw [List.length_map, List.count_eq_countP, List.countP_map, List.countP_eq_length_filter]
  congr 1
  apply List.filter_congr
  intro i _
  show fires_at m t s i = (fires_at m t s i == true)
  cases fires_at m t s i <;> rfl

theorem simulate_step_spike_times (m : Bool) (N : Nat) (t : Int) (s : Sim)
    (hlen : s.neurons.length = N) :
    (simulate_step m N t s).spike_times = s.spike_times ++ step_log m N t s :=
  (update_phase_spec m N t s hlen).2.1

theorem simulate_loop_spike_times (m : Bool) (N : Nat) (s : Sim)
    (hlen : s.neurons.length = N) (k : Nat) :
    (simulate_loop m N k s).spike_times = s.spike_times ++ run_log m N s k := by
  induction k with
  | zero => exact (List.append_nil _).symm
  | succ k ih =>
    show (simulate_step m N (k : Int) (simulate_loop m N k s)).spike_times = _
    rw [simulate_step_spike_times m N _ _ (simulate_loop_length m N s hlen k), ih,
      List.append_assoc]
    rfl

theorem run_log_length (m : Bool) (N : Nat) (s : Sim) (hlen : s.neurons.length = N)
    (k : Nat) : (run_log m N s k).length = fired_pairs m N s k := by
  induction k with
  | zero => rfl
  | succ k ih =>
    show (run_log m N s k ++ step_log m N (k : Int) (simulate_loop m N k s)).length = _
    rw [List.length_append, ih, step_log_length m N _ _ (simulate_loop_length m N s hlen k)]
    rfl

theorem mem_step_log (m : Bool) (N : Nat) (t : Int) (s : Sim) (e : Nat × ℚ)
    (h : e ∈ step_log m N t s) :
    e.1 < N ∧ e.2 = (t : ℚ) * dt ∧ fires_at m t s e.1 = true := by
  unfold step_log at h
  obtain ⟨i, hi, rfl⟩ := List.mem_map.mp h
  obtain ⟨h1, h2⟩ := List.mem_filter.mp hi
  exact ⟨List.mem_range.mp h1, rfl, h2⟩

theorem mem_run_log (m : Bool) (N : Nat) (s : Sim) (k : Nat) (e : Nat × ℚ)
    (h : e ∈ run_log m N s k) :
    ∃ t : Nat, t < k ∧ e.1 < N ∧ e.2 = (t : ℚ) * dt
      ∧ fires_at m (t : Int) (simulate_loop m N t s) e.1 = true := by
  induction k with
  | zero => cases h
  | succ k ih =>
    have h2 : e ∈ run_log m N s k ++ step_log m N (k : Int) (simulate_loop m N k s) := h
    rcases List.mem_append.mp h2 with h3 | h3
    · obtain ⟨t, ht, r⟩ := ih h3
      exact ⟨t, Nat.lt_succ_of_lt ht, r⟩
    · obtain ⟨h4, h5, h6⟩ := mem_step_log m N _ _ e h3
      refine ⟨k, Nat.lt_succ_self k, h4, ?_, h6⟩
      rw [h5]
      push_cast
      rfl

theorem update_phase_flag_of_fires (m : Bool) (N : Nat) (t : Int) (s : Sim)
    (hlen : s.neurons.length = N) (i : Nat) (hi : i < N) (h : fires_at m t s i = true) :
    (update_phase m N t s).2[i]? = some true := by
  rw [(update_phase_spec m N t s hlen).2.2.2.2 i hi, h]

theorem steps_toNat : steps.toNat = 10000 := by
  rw [steps_eq]; rfl

/-- C12 (spike-log completeness): started with an empty `spike_times` on N
neurons, after k iterations of `simulate` the length of `spike_times`, and
the number of records `save_spikes` writes, equal the number of pairs (t, i),
t < k, i < N, whose fired flag was set by `Neuron::update`; every entry is
(i, t*dt) for such a pair, so its neuron index is below N.  The function
`simulate` is the case k = steps = 10000. -/
theorem C12_spike_log_completeness (use_conductance_based : Bool) (N : Nat) (s : Sim)
    (hlen : s.neurons.length = N) (hempty : s.spike_times = []) :
    (∀ k : Nat,
      (simulate_loop use_conductance_based N k s).spike_times.length
        = fired_pairs use_conductance_based N s k ∧
      (save_spikes (simulate_loop use_conductance_based N k s)).length
        = fired_pairs use_conductance_based N s k ∧
      ∀ e ∈ (simulate_loop use_conductance_based N k s).spike_times,
        ∃ t : Nat, t < k ∧ e.1 < N ∧ e = (e.1, (t : ℚ) * dt) ∧
          (update_phase use_conductance_based N (t : Int)
            (simulate_loop use_conductance_based N t s)).2[e.1]? = some true) ∧
    simulate use_conductance_based N s = simulate_loop use_conductance_based N 10000 s := by
  refine ⟨fun k => ?_, ?_⟩
  · have hlog := simulate_loop_spike_times use_conductance_based N s hlen k
    rw [hempty, List.nil_append] at hlog
    have hl := run_log_length use_conductance_based N s hlen k
    refine ⟨by rw [hlog, hl], ?_, fun e he => ?_⟩
    · unfold save_spikes
      rw [List.length_map, hlog, hl]
    · rw [hlog] at he
      obtain ⟨t, ht, h1, h2, h3⟩ := mem_run_log use_conductance_based N s k e he
      refine ⟨t, ht, h1, Prod.ext rfl h2, ?_⟩
      exact update_phase_flag_of_fires use_conductance_based N _ _
        (simulate_loop_length use_conductance_based N s hlen t) e.1 h1 h3
  · unfold simulate
    rw [steps_toNat]

/-- C12 evaluated on two initial neurons whose draws are all 0: both fire
at step 0, and after one iteration the log has two entries. -/
theorem C12_spike_log_completeness_witness :
    (init 2 ⟨fun _ => 0, fun _ => false, 0⟩).neurons.length = 2 ∧
    (init 2 ⟨fun _ => 0, fun _ => false, 0⟩).spike_times = [] ∧
    (simulate_loop true 2 1 (init 2 ⟨fun _ => 0, fun _ => false, 0⟩)).spike_times.length
      = 2 := by
  have h := C12_spike_log_completeness true 2 (init 2 ⟨fun _ => 0, fun _ => false, 0⟩)
    rfl rfl
  refine ⟨rfl, rfl, ?_⟩
  rw [(h.1 1).1]
  have f0 : fires_at true 0 (init 2 ⟨fun _ => 0, fun _ => false, 0⟩) 0 = true := by
    rw [fires_at_some true 0 (init 2 ⟨fun _ => 0, fun _ => false, 0⟩) 0 {} rfl,
      update_spontaneous true {} 0 0 _ (by decide)
        (by show (0 : ℚ) < p_s; norm_num [p_s])]
  have f1 : fires_at true 0 (init 2 ⟨fun _ => 0, fun _ => false, 0⟩) 1 = true := by
    rw [fires_at_some true 0 (init 2 ⟨fun _ => 0, fun _ => false, 0⟩) 1 {} rfl,
      update_spontaneous true {} 0 0 _ (by decide)
        (by show (0 : ℚ) < p_s; norm_num [p_s])]
  show 0 + (update_phase true 2 0 (init 2 ⟨fun _ => 0, fun _ => false, 0⟩)).2.count true = 2
  rw [update_phase_flags true 2 0 (init 2 ⟨fun _ => 0, fun _ => false, 0⟩) rfl]
  show 0 + [fires_at true 0 (init 2 ⟨fun _ => 0, fun _ => false, 0⟩) 0,
    fires_at true 0 (init 2 ⟨fun _ => 0, fun _ => false, 0⟩) 1].count true = 2
  rw [f0, f1]
  rfl

theorem dt_pos : 0 < dt := by
  norm_num [dt]

theorem logOrder_ne (e1 e2 : Nat × ℚ) (h : LogOrder e1 e2) : e1 ≠ e2 := by
  obtain ⟨ta, tb, h1, h2, h3⟩ := h
  intro he
  subst he
  have hq : (ta : ℚ) * dt = (tb : ℚ) * dt := by rw [← h1, ← h2]
  have hab : ta = tb := by
    have := mul_right_cancel₀ (ne_of_gt dt_pos) hq
    exact_mod_cast this
  rcases h3 with h3 | ⟨_, h3⟩
  · omega
  · exact absurd h3 (Nat.lt_irrefl _)

theorem step_log_pairwise (m : Bool) (N : Nat) (k : Nat) (s : Sim) :
    List.Pairwise LogOrder (step_log m N (k : Int) s) := by
  unfold step_log
  rw [List.pairwise_map]
  refine List.Pairwise.imp ?_ (List.Pairwise.filter _ (List.pairwise_lt_range N))
  intro a b hab
  refine ⟨k, k, ?_, ?_, Or.inr ⟨rfl, hab⟩⟩
  · show ((k : Int) : ℚ) * dt = (k : ℚ) * dt
    push_cast; rfl
  · show ((k : Int) : ℚ) * dt = (k : ℚ) * dt
    push_cast; rfl

theorem run_log_pairwise (m : Bool) (N : Nat) (s : Sim) (k : Nat) :
    List.Pairwise LogOrder (run_log m N s k) := by
  induction k with
  | zero => exact List.Pairwise.nil
  | succ k ih =>
    show List.Pairwise LogOrder
      (run_log m N s k ++ step_log m N (k : Int) (simulate_loop m N k s))
    rw [List.pairwise_append]
    refine ⟨ih, step_log_pairwise m N k _, fun a ha b hb => ?_⟩
    obtain ⟨t, ht, _, h2, _⟩ := mem_run_log m N s k a ha
    obtain ⟨_, h5, _⟩ := mem_step_log m N _ _ b hb
    refine ⟨t, k, h2, ?_, Or.inl ht⟩
    rw [h5]
    push_cast; rfl

/-- C13 (emission order of the spike log): started with an empty
`spike_times` on N neurons, after any number of iterations of `simulate`
the log is ordered by step and, within a step, by neuron index: of two
entries at positions a < b the first comes from an earlier step or from the
same step and a smaller index, so no entry occurs twice; `save_spikes` writes
the entry at each position as the record `(time, id)` at the same position
(it returns the records only, the state is not touched). -/
theorem C13_emission_order (use_conductance_based : Bool) (N : Nat) (s : Sim)
    (hlen : s.neurons.length = N) (hempty : s.spike_times = []) (k : Nat) :
    List.Pairwise LogOrder (simulate_loop use_conductance_based N k s).spike_times ∧
    (∀ (a b : Nat) (ea eb : Nat × ℚ), a < b →
      (simulate_loop use_conductance_based N k s).spike_times[a]? = some ea →
      (simulate_loop use_conductance_based N k s).spike_times[b]? = some eb →
      ∃ ta tb : Nat, ea.2 = (ta : ℚ) * dt ∧ eb.2 = (tb : ℚ) * dt
        ∧ (ta < tb ∨ (ta = tb ∧ ea.1 < eb.1))) ∧
    (simulate_loop use_conductance_based N k s).spike_times.Nodup ∧
    (save_spikes (simulate_loop use_conductance_based N k s)).length
      = (simulate_loop use_conductance_based N k s).spike_times.length ∧
    (∀ a : Nat, (save_spikes (simulate_loop use_conductance_based N k s))[a]?
      = ((simulate_loop use_conductance_based N k s).spike_times[a]?).map
          (fun e => (e.2, e.1))) := by
  have hlog := simulate_loop_spike_times use_conductance_based N s hlen k
  rw [hempty, List.nil_append] at hlog
  have hp : List.Pairwise LogOrder (simulate_loop use_conductance_based N k s).spike_times := by
    rw [hlog]; exact run_log_pairwise use_conductance_based N s k
  refine ⟨hp, fun a b ea eb hab ha hb => ?_, ?_, ?_, fun a => ?_⟩
  · obtain ⟨ha1, ha2⟩ := List.getElem?_eq_some.mp ha
    obtain ⟨hb1, hb2⟩ := List.getElem?_eq_some.mp hb
    have := List.pairwise_iff_getElem.mp hp a b ha1 hb1 hab
    rw [ha2, hb2] at this
    exact this
  · exact List.Pairwise.imp (fun {a b} h => logOrder_ne a b h) hp
  · unfold save_spikes
    rw [List.length_map]
  · unfold save_spikes
    rw [List.getElem?_map]

/-- C13 evaluated on two initial neurons after three iterations. -/
theorem C13_emission_order_witness :
    (init 2 ⟨fun _ => 0, fun _ => false, 0⟩).neurons.length = 2 ∧
    (init 2 ⟨fun _ => 0, fun _ => false, 0⟩).spike_times = [] ∧
    List.Pairwise LogOrder
      (simulate_loop false 2 3 (init 2 ⟨fun _ => 0, fun _ => false, 0⟩)).spike_times :=
  ⟨rfl, rfl,
   (C13_emission_order false 2 (init 2 ⟨fun _ => 0, fun _ => false, 0⟩) rfl rfl 3).1⟩

/-! ## Per-neuron records and the log -/

theorem update_spike_history (m : Bool) (n : Neuron) (t : Int) (ci : ℚ) (rng : Rng) :
    (n.update m t ci rng).1.spike_history
      = n.spike_history
        ++ (if (n.update m t ci rng).2.1 = true then [(t : ℚ) * dt] else []) := by
  by_cases hr : n.refract_timer > 0
  · rw [update_refractory m n t ci rng hr]
    exact (List.append_nil _).symm
  · by_cases hs : rng.uniform rng.calls < p_s
    · rw [update_spontaneous m n t ci rng hr hs]; rfl
    · by_cases hv : (Neuron.integrate m n).V ≥ V_th
      · rw [update_threshold m n t ci rng hr hs hv]
        show (Neuron.integrate m n).spike_history ++ _ = _
        rw [integrate_spike_history]; rfl
      · rw [update_quiet m n t ci rng hr hs hv]
        show (Neuron.integrate m n).spike_history = n.spike_history ++ []
        rw [integrate_spike_history, List.append_nil]

theorem iterate_receive_spike_spike_history (m : Bool) (c : Nat) (n : Neuron) :
    ((Neuron.receive_spike m)^[c] n).spike_history = n.spike_history := by
  induction c generalizing n with
  | zero => rfl
  | succ c ih => rw [Function.iterate_succ_apply, ih, receive_spike_spike_history]

theorem range_filter_index (p : Nat → Bool) (x : ℚ) (j N : Nat) :
    ((((List.range N).filter p).map (fun i => (i, x))).filter
        (fun e => decide (e.1 = j))).map Prod.snd
      = if j < N ∧ p j = true then [x] else [] := by
  induction N with
  | zero => simp
  | succ N ih =>
    rw [List.range_succ, List.filter_append, List.map_append, List.filter_append,
      List.map_append, ih]
    by_cases hN : N = j
    · subst hN
      rw [if_neg (fun c => Nat.lt_irrefl _ c.1), List.nil_append]
      by_cases hp : p N = true
      · rw [if_pos ⟨Nat.lt_succ_self N, hp⟩]
        simp [List.filter_cons, hp]
      · rw [if_neg (fun c => hp c.2)]
        simp [List.filter_cons, hp]
    · have e1 : ((([N].filter p).map (fun i => (i, x))).filter
          (fun e => decide (e.1 = j))).map Prod.snd = [] := by
        by_cases hp : p N = true
        · simp [List.filter_cons, hp, hN]
        · simp [List.filter_cons, hp]
      rw [e1, List.append_nil]
      by_cases hc : j < N ∧ p j = true
      · rw [if_pos hc, if_pos ⟨Nat.lt_succ_of_lt hc.1, hc.2⟩]
      · rw [if_neg hc, if_neg (fun c => hc ⟨by omega, c.2⟩)]

theorem simulate_step_history (m : Bool) (N : Nat) (t : Int) (s : Sim)
    (hlen : s.neurons.length = N) (j : Nat) (n2 : Neuron)
    (h : (simulate_step m N t s).neurons[j]? = some n2) :
    ∃ n, s.neurons[j]? = some n ∧
      n2.spike_history
        = n.spike_history ++ ((step_log m N t s).filter
            (fun e => decide (e.1 = j))).map Prod.snd := by
  rw [simulate_step_getElem? m N t s hlen j] at h
  cases hn : s.neurons[j]? with
  | none => rw [hn] at h; cases h
  | some n =>
    rw [hn] at h
    have h2 := Option.some.inj h
    refine ⟨n, rfl, ?_⟩
    rw [← h2, iterate_receive_spike_spike_history, update_spike_history]
    unfold step_log
    rw [range_filter_index, ← fires_at_some m t s j n hn]
    have hj : j < N := by
      rw [← hlen]
      exact (List.getElem?_eq_some.mp hn).1
    by_cases hf : fires_at m t s j = true
    · rw [if_pos hf, if_pos ⟨hj, hf⟩]
    · rw [if_neg hf, if_neg (fun c => hf c.2)]

theorem simulate_loop_history (m : Bool) (N : Nat) (s : Sim) (hlen : s.neurons.length = N)
    (k : Nat) : ∀ (j : Nat) (n2 : Neuron), (simulate_loop m N k s).neurons[j]? = some n2 →
      ∃ n, s.neurons[j]? = some n ∧
        n2.spike_history
          = n.spike_history ++ ((run_log m N s k).filter
              (fun e => decide (e.1 = j))).map Prod.snd := by
  induction k with
  | zero =>
    intro j n2 h
    exact ⟨n2, h, (List.append_nil _).symm⟩
  | succ k ih =>
    intro j n2 h
    obtain ⟨n1, h1, h2⟩ := simulate_step_history m N (k : Int) (simulate_loop m N k s)
      (simulate_loop_length m N s hlen k) j n2 h
    obtain ⟨n, h3, h4⟩ := ih j n1 h1
    refine ⟨n, h3, ?_⟩
    rw [h2, h4]
    show _ = n.spike_history ++ (((run_log m N s k
      ++ step_log m N (k : Int) (simulate_loop m N k s)).filter
        (fun e => decide (e.1 = j))).map Prod.snd)
    rw [List.filter_append, List.map_append, List.append_assoc]

/-- C20 (per-neuron record agrees with the global log): started from empty
spike_history lists and an empty `spike_times` on N neurons, after any number
k of iterations of `simulate` the spike_history of every neuron i is, in
order, the list of times of the entries of `spike_times` whose neuron index
is i; every entry of the log carries the time t*dt of a step t < k in which
the update of its neuron fired; and the times of a spike_history are t*dt for
strictly increasing step indices t. -/
theorem C20_record_agrees_with_log (use_conductance_based : Bool) (N : Nat) (s : Sim)
    (hlen : s.neurons.length = N) (hlog : s.spike_times = [])
    (hrec : ∀ a ∈ s.neurons, a.spike_history = []) (k : Nat) :
    (∀ (i : Nat) (n : Neuron),
      (simulate_loop use_conductance_based N k s).neurons[i]? = some n →
      n.spike_history
        = (((simulate_loop use_conductance_based N k s).spike_times.filter
            (fun e => decide (e.1 = i))).map Prod.snd) ∧
      List.Pairwise (fun a b => ∃ ta tb : Nat, a = (ta : ℚ) * dt ∧ b = (tb : ℚ) * dt
        ∧ ta < tb) n.spike_history) ∧
    (∀ e ∈ (simulate_loop use_conductance_based N k s).spike_times,
      ∃ t : Nat, t < k ∧ e.2 = (t : ℚ) * dt ∧
        fires_at use_conductance_based (t : Int)
          (simulate_loop use_conductance_based N t s) e.1 = true) := by
  have hst := simulate_loop_spike_times use_conductance_based N s hlen k
  rw [hlog, List.nil_append] at hst
  rw [hst]
  refine ⟨fun i n hn => ?_, fun e he => ?_⟩
  · obtain ⟨n0, h0, h1⟩ := simulate_loop_history use_conductance_based N s hlen k i n hn
    rw [hrec n0 (List.getElem?_mem h0), List.nil_append] at h1
    refine ⟨h1, ?_⟩
    rw [h1, List.pairwise_map]
    refine List.Pairwise.imp_of_mem ?_
      (List.Pairwise.filter _ (run_log_pairwise use_conductance_based N s k))
    intro a b ha hb hab
    have ha1 : a.1 = i := by simpa using (List.mem_filter.mp ha).2
    have hb1 : b.1 = i := by simpa using (List.mem_filter.mp hb).2
    obtain ⟨ta, tb, h2, h3, h4⟩ := hab
    refine ⟨ta, tb, h2, h3, ?_⟩
    rcases h4 with h4 | ⟨_, h4⟩
    · exact h4
    · rw [ha1, hb1] at h4
      exact absurd h4 (Nat.lt_irrefl _)
  · obtain ⟨t, ht, _, h2, h3⟩ := mem_run_log use_conductance_based N s k e he
    exact ⟨t, ht, h2, h3⟩

/-- C20 evaluated on two initial neurons after 25 iterations. -/
theorem C20_record_agrees_with_log_witness :
    (init 2 ⟨fun _ => 0, fun _ => false, 0⟩).neurons.length = 2 ∧
    (init 2 ⟨fun _ => 0, fun _ => false, 0⟩).spike_times = [] ∧
    ∀ e ∈ (simulate_loop true 2 25 (init 2 ⟨fun _ => 0, fun _ => false, 0⟩)).spike_times,
      ∃ t : Nat, t < 25 ∧ e.2 = (t : ℚ) * dt ∧
        fires_at true (t : Int)
          (simulate_loop true 2 t (init 2 ⟨fun _ => 0, fun _ => false, 0⟩)) e.1 = true :=
  ⟨rfl, rfl,
   (C20_record_agrees_with_log true 2 (init 2 ⟨fun _ => 0, fun _ => false, 0⟩) rfl rfl
     (fun a ha => by rw [List.eq_of_mem_replicate ha]) 25).2⟩

/-! ## Unconnected network -/

theorem integrate_unstimulated (m : Bool) (n : Neuron) (h : Unstimulated n) :
    (Neuron.integrate m n).I_syn = 0 ∧ (Neuron.integrate m n).V = V_rest := by
  obtain ⟨hg, hI, hV, _, _⟩ := h
  cases m with
  | true =>
    refine ⟨?_, ?_⟩
    · show max 0 (n.I_syn + -(n.g / tau_s) * dt) = 0
      rw [hg, hI]
      norm_num
    · show n.V + dt / tau_m * (-(n.V - V_rest) + R_m * n.g * (E_rev - n.V)) = V_rest
      rw [hg, hV]
      ring
  | false =>
    refine ⟨?_, ?_⟩
    · show n.I_syn + -(n.I_syn / tau_s) * dt = 0
      rw [hI]
      ring
    · show n.V + dt / tau_m * (-(n.V - V_rest) + R_m * (n.I_syn + -(n.I_syn / tau_s) * dt))
        = V_rest
      rw [hI, hV]
      ring

theorem update_unstimulated (m : Bool) (n : Neuron) (t : Int) (ci : ℚ) (rng : Rng)
    (h : Unstimulated n) :
    Unstimulated (n.update m t ci rng).1 ∧
    ((n.update m t ci rng).2.1 = true →
      n.refract_timer = 0 ∧ rng.uniform rng.calls < p_s) := by
  have hi := integrate_unstimulated m n h
  obtain ⟨hg, hI, hV, hp, h0⟩ := h
  by_cases hr : n.refract_timer > 0
  · rw [update_refractory m n t ci rng hr]
    refine ⟨⟨hg, hI, rfl, hp, ?_⟩, fun hf => (by cases hf)⟩
    show 0 ≤ n.refract_timer - 1
    omega
  · have hz : n.refract_timer = 0 := by omega
    by_cases hs : rng.uniform rng.calls < p_s
    · rw [update_spontaneous m n t ci rng hr hs]
      exact ⟨⟨hg, hI, rfl, hp, ref_steps_nonneg⟩, fun _ => ⟨hz, hs⟩⟩
    · have hv : ¬ (Neuron.integrate m n).V ≥ V_th := by
        rw [hi.2]
        exact not_le.mpr V_rest_lt_V_th
      rw [update_quiet m n t ci rng hr hs hv]
      refine ⟨⟨?_, hi.1, hi.2, ?_, ?_⟩, fun hf => (by cases hf)⟩
      · rw [integrate_g]; exact hg
      · rw [integrate_post_synaptic]; exact hp
      · rw [integrate_refract_timer]; exact h0

theorem incoming_of_no_targets (fired : List Bool) (ns : List Neuron) (order : List Nat)
    (j : Nat) (h : ∀ i, targets_of ns i = []) : incoming fired ns order j = 0 := by
  unfold incoming
  induction order with
  | nil => rfl
  | cons i order ih =>
    rw [List.map_cons, List.sum_cons, ih, h i]
    simp

theorem update_phase_unstimulated (m : Bool) (N : Nat) (t : Int) (s : Sim)
    (hlen : s.neurons.length = N)
    (h : ∀ (j : Nat) (n : Neuron), s.neurons[j]? = some n → Unstimulated n) :
    (∀ i, targets_of (update_phase m N t s).1.neurons i = []) ∧
    (∀ j, incoming (update_phase m N t s).2 (update_phase m N t s).1.neurons
      (List.range N) j = 0) := by
  have ht : ∀ i, targets_of (update_phase m N t s).1.neurons i = [] := by
    intro i
    unfold targets_of
    rw [(update_phase_spec m N t s hlen).2.2.1 i]
    cases hn : s.neurons[i]? with
    | none => rfl
    | some n =>
      simp only [Option.map_some']
      exact (update_unstimulated m n t 0 _ (h i n hn)).1.2.2.2.1
  exact ⟨ht, fun j => incoming_of_no_targets _ _ _ j ht⟩

theorem simulate_step_unstimulated (m : Bool) (N : Nat) (t : Int) (s : Sim)
    (hlen : s.neurons.length = N)
    (h : ∀ (j : Nat) (n : Neuron), s.neurons[j]? = some n → Unstimulated n) :
    ∀ (j : Nat) (n : Neuron), (simulate_step m N t s).neurons[j]? = some n →
      Unstimulated n := by
  intro j n2 hn2
  rw [simulate_step_getElem? m N t s hlen j,
    (update_phase_unstimulated m N t s hlen h).2 j] at hn2
  cases hn : s.neurons[j]? with
  | none => rw [hn] at hn2; cases hn2
  | some n =>
    rw [hn] at hn2
    have e := Option.some.inj hn2
    rw [← e]
    exact (update_unstimulated m n t 0 _ (h j n hn)).1

theorem simulate_loop_unstimulated (m : Bool) (N : Nat) (s : Sim)
    (hlen : s.neurons.length = N)
    (h : ∀ (j : Nat) (n : Neuron), s.neurons[j]? = some n → Unstimulated n) (k : Nat) :
    ∀ (j : Nat) (n : Neuron), (simulate_loop m N k s).neurons[j]? = some n →
      Unstimulated n := by
  induction k with
  | zero => exact h
  | succ k ih =>
    exact simulate_step_unstimulated m N (k : Int) _ (simulate_loop_length m N s hlen k) ih

theorem init_unstimulated (N : Nat) (rng : Rng) :
    ∀ (j : Nat) (n : Neuron), (init N rng).neurons[j]? = some n → Unstimulated n := by
  intro j n hn
  have hmem : n ∈ List.replicate N ({} : Neuron) := List.getElem?_mem hn
  rw [List.eq_of_mem_replicate hmem]
  exact ⟨rfl, rfl, rfl, rfl, le_refl _⟩

/-- C14 (unconnected network): in the run of `simulate` from N initial
neurons, all with empty post_synaptic lists, for any draws and either mode:
after any number k of iterations every neuron has g = 0, I_syn = 0 and
V = V_rest; the number of `receive_spike` calls delivered to any neuron in
the next step is zero; and every entry of the spike log is (i, t*dt) for a
step t < k at which neuron i was active (timer 0) and its spontaneous-fire
draw was below p_s. -/
theorem C14_unconnected_network (use_conductance_based : Bool) (N : Nat) (rng : Rng)
    (k : Nat) :
    (∀ (j : Nat) (n : Neuron),
      (simulate_loop use_conductance_based N k (init N rng)).neurons[j]? = some n →
      n.g = 0 ∧ n.I_syn = 0 ∧ n.V = V_rest) ∧
    (∀ j : Nat,
      incoming
        (update_phase use_conductance_based N (k : Int)
          (simulate_loop use_conductance_based N k (init N rng))).2
        (update_phase use_conductance_based N (k : Int)
          (simulate_loop use_conductance_based N k (init N rng))).1.neurons
        (List.range N) j = 0) ∧
    (∀ e ∈ (simulate_loop use_conductance_based N k (init N rng)).spike_times,
      ∃ (t : Nat) (n : Neuron), t < k ∧ e.2 = (t : ℚ) * dt ∧
        (simulate_loop use_conductance_based N t (init N rng)).neurons[e.1]? = some n ∧
        n.refract_timer = 0 ∧
        (rng_at (simulate_loop use_conductance_based N t (init N rng)) e.1).uniform
          (rng_at (simulate_loop use_conductance_based N t (init N rng)) e.1).calls
          < p_s) := by
  have hlen : (init N rng).neurons.length = N := List.length_replicate N _
  have hq := simulate_loop_unstimulated use_conductance_based N (init N rng) hlen
    (init_unstimulated N rng)
  refine ⟨fun j n hn => ?_, ?_, fun e he => ?_⟩
  · obtain ⟨h1, h2, h3, _, _⟩ := hq k j n hn
    exact ⟨h1, h2, h3⟩
  · exact (update_phase_unstimulated use_conductance_based N _ _
      (simulate_loop_length use_conductance_based N _ hlen k) (hq k)).2
  · have hst := simulate_loop_spike_times use_conductance_based N (init N rng) hlen k
    have hnil : (init N rng).spike_times = [] := rfl
    rw [hnil, List.nil_append] at hst
    rw [hst] at he
    obtain ⟨t, ht, h1, h2, h3⟩ := mem_run_log use_conductance_based N _ k e he
    have hlt : e.1 < (simulate_loop use_conductance_based N t (init N rng)).neurons.length := by
      rw [simulate_loop_length use_conductance_based N _ hlen t]; exact h1
    have hn := List.getElem?_eq_getElem hlt
    generalize (simulate_loop use_conductance_based N t (init N rng)).neurons[e.1] = n at hn
    rw [fires_at_some _ _ _ _ n hn] at h3
    obtain ⟨h4, h5⟩ := (update_unstimulated use_conductance_based n (t : Int) 0 _
      (hq t e.1 n hn)).2 h3
    exact ⟨t, n, ht, h2, hn, h4, h5⟩

/-! ## Two-neuron scenario -/

theorem update_g (m : Bool) (n : Neuron) (t : Int) (ci : ℚ) (rng : Rng) :
    (n.update m t ci rng).1.g = n.g := by
  by_cases hr : n.refract_timer > 0
  · rw [update_refractory m n t ci rng hr]
  · by_cases hs : rng.uniform rng.calls < p_s
    · rw [update_spontaneous m n t ci rng hr hs]; rfl
    · by_cases hv : (Neuron.integrate m n).V ≥ V_th
      · rw [update_threshold m n t ci rng hr hs hv]
        exact integrate_g m n
      · rw [update_quiet m n t ci rng hr hs hv]
        exact integrate_g m n

theorem update_false_I_syn (n : Neuron) (t : Int) (ci : ℚ) (rng : Rng) :
    (n.update false t ci rng).1.I_syn = n.I_syn ∨
    (n.update false t ci rng).1.I_syn = n.I_syn * (49 / 50) := by
  have hI : (Neuron.integrate false n).I_syn = n.I_syn * (49 / 50) := by
    show n.I_syn + -(n.I_syn / tau_s) * dt = _
    norm_num [tau_s, dt]
    ring
  by_cases hr : n.refract_timer > 0
  · rw [update_refractory false n t ci rng hr]; exact Or.inl rfl
  · by_cases hs : rng.uniform rng.calls < p_s
    · rw [update_spontaneous false n t ci rng hr hs]; exact Or.inl rfl
    · by_cases hv : (Neuron.integrate false n).V ≥ V_th
      · rw [update_threshold false n t ci rng hr hs hv]; exact Or.inr hI
      · rw [update_quiet false n t ci rng hr hs hv]; exact Or.inr hI

theorem accumulator_update (m : Bool) (n : Neuron) (t : Int) (ci : ℚ) (rng : Rng) :
    (accumulator m n = 0 → accumulator m (n.update m t ci rng).1 = 0) ∧
    (0 < accumulator m n → 0 < accumulator m (n.update m t ci rng).1) := by
  cases m with
  | true =>
    show (n.g = 0 → (n.update true t ci rng).1.g = 0)
      ∧ (0 < n.g → 0 < (n.update true t ci rng).1.g)
    rw [update_g]
    exact ⟨id, id⟩
  | false =>
    show (n.I_syn = 0 → (n.update false t ci rng).1.I_syn = 0)
      ∧ (0 < n.I_syn → 0 < (n.update false t ci rng).1.I_syn)
    rcases update_false_I_syn n t ci rng with h | h
    · rw [h]; exact ⟨id, id⟩
    · rw [h]
      exact ⟨fun h0 => by rw [h0]; ring, fun hp => by linarith⟩

theorem accumulator_iterate_receive_spike (m : Bool) (c : Nat) (n : Neuron) :
    accumulator m ((Neuron.receive_spike m)^[c] n)
      = accumulator m n + (if m then g_s else I_s) * (c : ℚ) := by
  cases m with
  | true => rw [iterate_receive_spike_true]; rfl
  | false => rw [iterate_receive_spike_false]; rfl

theorem quantum_pos (m : Bool) : (0 : ℚ) < (if m then g_s else I_s) := by
  cases m with
  | true => show (0 : ℚ) < g_s; norm_num [g_s]
  | false => show (0 : ℚ) < I_s; norm_num [I_s]

theorem incoming_pos (fired : List Bool) (ns : List Neuron) (order : List Nat) (i j : Nat)
    (hi : i ∈ order) (hf : fired.getD i false = true) (hj : j ∈ targets_of ns i) :
    0 < incoming fired ns order j := by
  unfold incoming
  induction order with
  | nil => cases hi
  | cons a order ih =>
    rw [List.map_cons, List.sum_cons]
    rcases List.mem_cons.mp hi with h | h
    · subst h
      rw [if_pos hf]
      have := List.count_pos_iff.mpr hj
      omega
    · have := ih h
      omega

theorem simulate_step_accumulator_pos (m : Bool) (N : Nat) (t : Int) (s : Sim)
    (hlen : s.neurons.length = N) (j : Nat) (n : Neuron) (hn : s.neurons[j]? = some n)
    (hp : 0 < accumulator m n) :
    ∃ n2, (simulate_step m N t s).neurons[j]? = some n2 ∧ 0 < accumulator m n2 := by
  refine ⟨_, by rw [simulate_step_getElem? m N t s hlen j, hn]; rfl, ?_⟩
  rw [accumulator_iterate_receive_spike]
  have h1 := (accumulator_update m n t 0 (rng_at s j)).2 hp
  have h2 : (0 : ℚ) ≤ (if m then g_s else I_s) * ((incoming (update_phase m N t s).2
      (update_phase m N t s).1.neurons (List.range N) j : Nat) : ℚ) :=
    mul_nonneg (le_of_lt (quantum_pos m)) (Nat.cast_nonneg _)
  linarith

theorem simulate_step_history_mem (m : Bool) (N : Nat) (t : Int) (s : Sim)
    (hlen : s.neurons.length = N) (j : Nat) (n : Neuron) (x : ℚ)
    (hn : s.neurons[j]? = some n) (hx : x ∈ n.spike_history) :
    ∃ n2, (simulate_step m N t s).neurons[j]? = some n2 ∧ x ∈ n2.spike_history := by
  have hex : ∃ n2, (simulate_step m N t s).neurons[j]? = some n2 := by
    rw [simulate_step_getElem? m N t s hlen j, hn]
    exact ⟨_, rfl⟩
  obtain ⟨n2, hn2⟩ := hex
  obtain ⟨n1, h1, h2⟩ := simulate_step_history m N t s hlen j n2 hn2
  rw [hn] at h1
  have e := Option.some.inj h1
  subst e
  exact ⟨n2, hn2, by rw [h2]; exact List.mem_append_left _ hx⟩

theorem two_neurons_first_step (m : Bool) (ps0 ps1 : List Nat) (rng : Rng)
    (h1 : 1 ∈ ps0) (hdraw : rng.uniform rng.calls < p_s) :
    (∃ n0, (simulate_step m 2 0 (two_neurons ps0 ps1 rng)).neurons[0]? = some n0 ∧
      (0 : ℚ) ∈ n0.spike_history) ∧
    (∃ n1, (simulate_step m 2 0 (two_neurons ps0 ps1 rng)).neurons[1]? = some n1 ∧
      0 < accumulator m n1) := by
  have hlen : (two_neurons ps0 ps1 rng).neurons.length = 2 := rfl
  have hn0 : (two_neurons ps0 ps1 rng).neurons[0]? = some { post_synaptic := ps0 } := rfl
  have hn1 : (two_neurons ps0 ps1 rng).neurons[1]? = some { post_synaptic := ps1 } := rfl
  have hup : ({ post_synaptic := ps0 } : Neuron).update m 0 0
      (rng_at (two_neurons ps0 ps1 rng) 0)
      = (({ post_synaptic := ps0 } : Neuron).fire 0, true,
          (uni (rng_at (two_neurons ps0 ps1 rng) 0)).2) :=
    update_spontaneous m _ 0 0 _ (fun h => absurd h (lt_irrefl (0 : Int))) hdraw
  have hfire : fires_at m 0 (two_neurons ps0 ps1 rng) 0 = true := by
    rw [fires_at_some m 0 _ 0 _ hn0, hup]
  refine ⟨?_, ?_⟩
  · refine ⟨_, by rw [simulate_step_getElem? m 2 0 _ hlen 0, hn0]; rfl, ?_⟩
    rw [iterate_receive_spike_spike_history, hup]
    show (0 : ℚ) ∈ [] ++ [((0 : Int) : ℚ) * dt]
    simp
  · refine ⟨_, by rw [simulate_step_getElem? m 2 0 _ hlen 1, hn1]; rfl, ?_⟩
    rw [accumulator_iterate_receive_spike]
    have hz : accumulator m (({ post_synaptic := ps1 } : Neuron).update m 0 0
        (rng_at (two_neurons ps0 ps1 rng) 1)).1 = 0 := by
      apply (accumulator_update m _ 0 0 _).1
      cases m <;> rfl
    rw [hz, zero_add]
    have hflag : (update_phase m 2 0 (two_neurons ps0 ps1 rng)).2.getD 0 false = true := by
      rw [List.getD_eq_getElem?_getD,
        update_phase_flag_of_fires m 2 0 _ hlen 0 (by decide) hfire]
      rfl
    have htar : (1 : Nat) ∈ targets_of
        (update_phase m 2 0 (two_neurons ps0 ps1 rng)).1.neurons 0 := by
      unfold targets_of
      rw [(update_phase_spec m 2 0 _ hlen).2.2.1 0, hn0]
      show 1 ∈ (({ post_synaptic := ps0 } : Neuron).update m 0 0 _).1.post_synaptic
      rw [update_post_synaptic]
      exact h1
    have hinc := incoming_pos _ _ (List.range 2) 0 1 (by decide) hflag htar
    have hc : (0 : ℚ) < ((incoming (update_phase m 2 0 (two_neurons ps0 ps1 rng)).2
        (update_phase m 2 0 (two_neurons ps0 ps1 rng)).1.neurons (List.range 2) 1 : Nat) : ℚ) :=
      Nat.cast_pos.mpr hinc
    exact mul_pos (quantum_pos m) hc

theorem two_neurons_later_steps (m : Bool) (ps0 ps1 : List Nat) (rng : Rng)
    (h1 : 1 ∈ ps0) (hdraw : rng.uniform rng.calls < p_s) (k : Nat) :
    (∃ n0, (simulate_loop m 2 (k + 1) (two_neurons ps0 ps1 rng)).neurons[0]? = some n0 ∧
      (0 : ℚ) ∈ n0.spike_history) ∧
    (∃ n1, (simulate_loop m 2 (k + 1) (two_neurons ps0 ps1 rng)).neurons[1]? = some n1 ∧
      0 < accumulator m n1) := by
  induction k with
  | zero => exact two_neurons_first_step m ps0 ps1 rng h1 hdraw
  | succ k ih =>
    obtain ⟨⟨n0, hn0, hx⟩, ⟨n1, hn1, hp⟩⟩ := ih
    have hlen := simulate_loop_length m 2 (two_neurons ps0 ps1 rng) rfl (k + 1)
    exact ⟨simulate_step_history_mem m 2 _ _ hlen 0 n0 0 hn0 hx,
      simulate_step_accumulator_pos m 2 _ _ hlen 1 n1 hn1 hp⟩

/-- C15 (end-to-end two-neuron scenario): for two initial neurons where
post_synaptic[0] contains 1 and the first draw (neuron 0 at step 0) is below
p_s, in either mode and whatever the later draws (in particular when no
other spontaneous check succeeds): neuron 1 is updated at step 0 with its
accumulator (g or I_syn according to the mode) equal to zero and leaves the
update phase of step 0 with it still zero; and at the start of every step
k >= 1, which is the state in which neuron 1 is updated at step k, neuron 0's
spike_history contains the time 0 and neuron 1's accumulator is strictly
positive. -/
theorem C15_two_neuron_scenario (use_conductance_based : Bool) (ps0 ps1 : List Nat)
    (rng : Rng) (h1 : 1 ∈ ps0) (hdraw : rng.uniform rng.calls < p_s) :
    (∃ n1, (two_neurons ps0 ps1 rng).neurons[1]? = some n1 ∧
      accumulator use_conductance_based n1 = 0) ∧
    (∃ n1, (update_phase use_conductance_based 2 0
        (two_neurons ps0 ps1 rng)).1.neurons[1]? = some n1 ∧
      accumulator use_conductance_based n1 = 0) ∧
    (∀ k : Nat, 1 ≤ k →
      (∃ n0, (simulate_loop use_conductance_based 2 k
          (two_neurons ps0 ps1 rng)).neurons[0]? = some n0 ∧
        (0 : ℚ) ∈ n0.spike_history) ∧
      (∃ n1, (simulate_loop use_conductance_based 2 k
          (two_neurons ps0 ps1 rng)).neurons[1]? = some n1 ∧
        0 < accumulator use_conductance_based n1)) := by
  have hz : accumulator use_conductance_based ({ post_synaptic := ps1 } : Neuron) = 0 := by
    cases use_conductance_based <;> rfl
  refine ⟨⟨_, rfl, hz⟩, ?_, fun k hk => ?_⟩
  · refine ⟨_, ?_, (accumulator_update use_conductance_based
      ({ post_synaptic := ps1 } : Neuron) 0 0 (rng_at (two_neurons ps0 ps1 rng) 1)).1 hz⟩
    rw [(update_phase_spec use_conductance_based 2 0 (two_neurons ps0 ps1 rng) rfl).2.2.1 1]
    rfl
  · obtain ⟨j, rfl⟩ : ∃ j, k = j + 1 := ⟨k - 1, by omega⟩
    exact two_neurons_later_steps use_conductance_based ps0 ps1 rng h1 hdraw j

/-- C15 evaluated in current-based mode with neuron 0 targeting neuron 1
only, first draw 0 and every other draw 1/2, after 5 iterations. -/
theorem C15_two_neuron_scenario_witness :
    (1 : Nat) ∈ [1] ∧ ((0 : ℚ) < p_s) ∧
    (∃ n0, (simulate_loop false 2 5 (two_neurons [1] []
        ⟨fun c => if c = 0 then 0 else 1 / 2, fun _ => false, 0⟩)).neurons[0]? = some n0 ∧
      (0 : ℚ) ∈ n0.spike_history) ∧
    (∃ n1, (simulate_loop false 2 5 (two_neurons [1] []
        ⟨fun c => if c = 0 then 0 else 1 / 2, fun _ => false, 0⟩)).neurons[1]? = some n1 ∧
      0 < accumulator false n1) :=
  have hd : (0 : ℚ) < p_s := by norm_num [p_s]
  ⟨by decide, hd,
   (C15_two_neuron_scenario false [1] []
     ⟨fun c => if c = 0 then 0 else 1 / 2, fun _ => false, 0⟩ (by decide) hd).2.2 5
     (by decide)⟩

end LIF
